import Mathlib

/-!
Verification development for the `skale-skills` repository.

Shallow embedding of the skill-discovery / installation core of the
`skiller` package (`core.py`, `config.py`, `commands/install.py`) and of
the `compress_docs.py` whitespace pass, together with theorems settling
the frozen claims about them.

Conventions of the embedding:
* Python values that flow through the configuration code are modelled by
  the inductive `PyVal`; Python dicts become association lists (whose key
  lists are `Nodup` for any dict that can actually arise in Python).
* Filesystem paths are absolute, normalised component lists
  (`List String`); `os.path.abspath` is then the identity and
  `os.path.join root b = root ++ [b]`.
* Fallible operations return `Option`/`Except`; catching an exception in
  Python corresponds to matching the `error` constructor.
* Third-party effects that the repository only calls (the YAML parser,
  the outcome of `shutil.copytree`, file reads) are oracles passed in as
  arguments, so every theorem holds for every behaviour of those effects.
-/

namespace Skale

/-- Model of the Python values handled by `skiller/config.py`: `None`,
strings, ints, bools, lists and dicts (dicts as association lists with
arbitrary keys, as in Python). -/
inductive PyVal where
  | pyNone
  | str (s : String)
  | int (n : Int)
  | bool (b : Bool)
  | list (xs : List PyVal)
  | dict (entries : List (PyVal × PyVal))

/-- `type(v).__name__` for the modelled values. -/
def pyTypeName : PyVal → String
  | .pyNone => "NoneType"
  | .str _ => "str"
  | .int _ => "int"
  | .bool _ => "bool"
  | .list _ => "list"
  | .dict _ => "dict"

/-- Rendering used where the Python error messages interpolate a value
(`f"...'\x7bkey\x7d'..."`).  Only strings are rendered exactly; no claim
depends on the rendering of the other cases. -/
def pyStr : PyVal → String
  | .pyNone => "None"
  | .str s => s
  | .int n => toString n
  | .bool b => if b then "True" else "False"
  | .list _ => "<list>"
  | .dict _ => "<dict>"

/-- Is the value a Python `str`? (`isinstance(v, str)`). -/
def isStrVal : PyVal → Bool
  | .str _ => true
  | _ => false

/-- Dict lookup `d[k]` / membership `k in d` for a string key `k`:
first binding whose key equals the string (Python dict keys are unique,
so on real dicts this is the unique binding). -/
def lookupKey (entries : List (PyVal × PyVal)) (k : String) : Option PyVal :=
  match entries.find? (fun p => match p.1 with | .str s => s == k | _ => false) with
  | some p => some p.2
  | Option.none => Option.none

/-- The item loop of `_validate_is_list_of_strings` (config.py:38-43):
first non-string item raises, carrying its index. -/
def checkAllStrings (fieldName : String) : List PyVal → Nat → Except String Unit
  | [], _ => .ok ()
  | v :: rest, i =>
    match v with
    | .str _ => checkAllStrings fieldName rest (i + 1)
    | other =>
      .error ("'" ++ fieldName ++ "[" ++ toString i ++ "]' must be a string, got "
        ++ pyTypeName other)

/-- `_validate_is_list_of_strings` (config.py:19-45). -/
def _validate_is_list_of_strings (value : PyVal) (fieldName : String) :
    Except String (List PyVal) :=
  match value with
  | .list xs =>
    match checkAllStrings fieldName xs 0 with
    | .ok _ => .ok xs
    | .error e => .error e
  | v => .error ("'" ++ fieldName ++ "' must be a list, got " ++ pyTypeName v)

/-- The key loop of `_validate_agent_dir` (config.py:64-71): every key of
the agent's dict must be the string `"user"` or `"project"`. -/
def checkAgentKeys (agentName : String) : List (PyVal × PyVal) → Except String Unit
  | [] => .ok ()
  | (k, _) :: rest =>
    let allowed := match k with
      | .str s => s == "user" || s == "project"
      | _ => false
    if allowed then checkAgentKeys agentName rest
    else
      .error ("agent_dirs['" ++ agentName ++ "'] has unknown key '" ++ pyStr k
        ++ "'. Allowed keys: project, user")

/-- The per-path-type check of `_validate_agent_dir` (config.py:73-80):
if the key is present its value must be `None` or a list of strings. -/
def checkPathType (agentName pathType : String) (entries : List (PyVal × PyVal)) :
    Except String Unit :=
  match lookupKey entries pathType with
  | Option.none => .ok ()
  | some .pyNone => .ok ()
  | some v =>
    match _validate_is_list_of_strings v
        ("agent_dirs['" ++ agentName ++ "']['" ++ pathType ++ "']") with
    | .ok _ => .ok ()
    | .error e => .error e

/-- `_validate_agent_dir` (config.py:48-80). -/
def _validate_agent_dir (agentName : String) (agentConfig : PyVal) : Except String Unit :=
  match agentConfig with
  | .dict entries =>
    match checkAgentKeys agentName entries with
    | .error e => .error e
    | .ok _ =>
      match checkPathType agentName "user" entries with
      | .error e => .error e
      | .ok _ => checkPathType agentName "project" entries
  | v =>
    .error ("agent_dirs['" ++ agentName ++ "'] must be a dict, got " ++ pyTypeName v)

/-- The agent loop of `_validate_agent_dirs` (config.py:107-113): keys
must be strings and every agent config must validate; raises at the
first failure. -/
def checkAgents : List (PyVal × PyVal) → Except String Unit
  | [] => .ok ()
  | (k, v) :: rest =>
    match k with
    | .str name =>
      match _validate_agent_dir name v with
      | .ok _ => checkAgents rest
      | .error e => .error e
    | other => .error ("agent_dirs keys must be strings, got " ++ pyTypeName other)

/-- `_validate_agent_dirs` (config.py:83-115). -/
def _validate_agent_dirs (agentDirs : PyVal) : Except String Unit :=
  match agentDirs with
  | .dict entries =>
    if entries.isEmpty then
      .error "'agent_dirs' cannot be empty - at least one agent must be configured"
    else checkAgents entries
  | v => .error ("'agent_dirs' must be a dict, got " ++ pyTypeName v)

/-- Is a top-level configuration key one of the allowed ones?
(config.py:153-156). -/
def isAllowedTopKey (k : PyVal) : Bool :=
  match k with
  | .str s => s == "custom_subdirs" || s == "discovery_dirs" || s == "agent_dirs"
  | _ => false

/-- The unknown-key pass of `validate_config` (config.py:153-156). -/
def unknownKeyErrors (entries : List (PyVal × PyVal)) : List String :=
  (entries.filter (fun p => !isAllowedTopKey p.1)).map
    (fun p => "Unknown configuration key: '" ++ pyStr p.1 ++ "'")

/-- `validate_config` (config.py:118-158): returns
`(len(errors) == 0, errors)` with the errors accumulated in source
order. -/
def validate_config (config : PyVal) : Bool × List String :=
  match config with
  | .dict entries =>
    let e1 : List String :=
      match lookupKey entries "custom_subdirs" with
      | some v =>
        match _validate_is_list_of_strings v "custom_subdirs" with
        | .ok _ => []
        | .error e => [e]
      | Option.none => []
    let e2 : List String :=
      match lookupKey entries "discovery_dirs" with
      | some v =>
        match _validate_is_list_of_strings v "discovery_dirs" with
        | .ok _ => []
        | .error e => [e]
      | Option.none => []
    let e3 : List String :=
      match lookupKey entries "agent_dirs" with
      | Option.none => ["Missing required field: 'agent_dirs'"]
      | some ad =>
        match _validate_agent_dirs ad with
        | .ok _ => []
        | .error e => [e]
    let errs := e1 ++ e2 ++ e3 ++ unknownKeyErrors entries
    (errs.isEmpty, errs)
  | v => (false, ["Configuration must be a dict, got " ++ pyTypeName v])

/-- Glossary shape (spec): a value that is `None` or a list of strings,
`Option.none` standing for an absent key. -/
def nullOrStringList : Option PyVal → Bool
  | Option.none => true
  | some .pyNone => true
  | some (.list xs) => xs.all isStrVal
  | some _ => false

/-- Glossary shape (spec): an agent directory is a dict whose keys are
drawn from `user`/`project` and whose present values are `None` or lists
of strings. -/
def agentEntryShape (v : PyVal) : Bool :=
  match v with
  | .dict es =>
    (es.all fun p => match p.1 with | .str s => s == "user" || s == "project" | _ => false)
      && nullOrStringList (lookupKey es "user")
      && nullOrStringList (lookupKey es "project")
  | _ => false

/-- Glossary shape (spec): `agent_dirs` is a non-empty dict with string
keys whose every value has the agent-directory shape. -/
def agentDirsShape (v : PyVal) : Bool :=
  match v with
  | .dict es =>
    !es.isEmpty && (es.all fun p => isStrVal p.1) && (es.all fun p => agentEntryShape p.2)
  | _ => false

/-- If the item loop accepts, every item is a string. -/
theorem checkAllStrings_ok (f : String) (xs : List PyVal) :
    ∀ i, checkAllStrings f xs i = .ok () → xs.all isStrVal = true := by
  induction xs with
  | nil => intro i _; rfl
  | cons v rest ih =>
    intro i h
    cases v with
    | str s =>
      simp only [checkAllStrings] at h
      simp [isStrVal, ih _ h]
    | pyNone => exact absurd h (by simp [checkAllStrings])
    | int n => exact absurd h (by simp [checkAllStrings])
    | bool b => exact absurd h (by simp [checkAllStrings])
    | list xs => exact absurd h (by simp [checkAllStrings])
    | dict es => exact absurd h (by simp [checkAllStrings])

/-- If `_validate_is_list_of_strings` accepts, the value is the returned
list and all its items are strings. -/
theorem _validate_is_list_of_strings_ok (v : PyVal) (f : String) (l : List PyVal)
    (h : _validate_is_list_of_strings v f = .ok l) :
    v = .list l ∧ l.all isStrVal = true := by
  cases v with
  | list xs =>
    simp only [_validate_is_list_of_strings] at h
    cases hc : checkAllStrings f xs 0 with
    | error e => simp [hc] at h
    | ok u =>
      cases u
      simp only [hc, Except.ok.injEq] at h
      subst h
      exact ⟨rfl, checkAllStrings_ok f xs 0 hc⟩
  | pyNone => exact absurd h (by simp [_validate_is_list_of_strings])
  | str s => exact absurd h (by simp [_validate_is_list_of_strings])
  | int n => exact absurd h (by simp [_validate_is_list_of_strings])
  | bool b => exact absurd h (by simp [_validate_is_list_of_strings])
  | dict es => exact absurd h (by simp [_validate_is_list_of_strings])

/-- If the key loop accepts, every key is `"user"` or `"project"`. -/
theorem checkAgentKeys_ok (n : String) (es : List (PyVal × PyVal))
    (h : checkAgentKeys n es = .ok ()) :
    (es.all fun p => match p.1 with
      | .str s => s == "user" || s == "project" | _ => false) = true := by
  induction es with
  | nil => rfl
  | cons p rest ih =>
    obtain ⟨k, v⟩ := p
    simp only [checkAgentKeys] at h
    split at h
    · next hk => simp [hk, ih h]
    · next hk => cases h

/-- If the per-path-type check accepts, the looked-up value is `None` or
a list of strings. -/
theorem checkPathType_ok (n pt : String) (es : List (PyVal × PyVal))
    (h : checkPathType n pt es = .ok ()) :
    nullOrStringList (lookupKey es pt) = true := by
  simp only [checkPathType] at h
  unfold nullOrStringList
  cases hl : lookupKey es pt with
  | none => rfl
  | some v =>
    simp only [hl] at h
    cases v with
    | pyNone => rfl
    | list xs =>
      cases hv : _validate_is_list_of_strings (.list xs)
          ("agent_dirs['" ++ n ++ "']['" ++ pt ++ "']") with
      | error e => simp [hv] at h
      | ok l =>
        obtain ⟨heq, hall⟩ := _validate_is_list_of_strings_ok _ _ _ hv
        cases heq
        simpa using hall
    | str s => simp [_validate_is_list_of_strings] at h
    | int m => simp [_validate_is_list_of_strings] at h
    | bool b => simp [_validate_is_list_of_strings] at h
    | dict ds => simp [_validate_is_list_of_strings] at h

/-- If `_validate_agent_dir` accepts, the agent config has the
glossary's agent-directory shape. -/
theorem _validate_agent_dir_ok (n : String) (v : PyVal)
    (h : _validate_agent_dir n v = .ok ()) : agentEntryShape v = true := by
  cases v with
  | dict es =>
    simp only [_validate_agent_dir] at h
    cases hk : checkAgentKeys n es with
    | error e => simp [hk] at h
    | ok u =>
      cases u
      simp only [hk] at h
      cases hu : checkPathType n "user" es with
      | error e => simp [hu] at h
      | ok u2 =>
        cases u2
        simp only [hu] at h
        simp only [agentEntryShape]
        simp [checkAgentKeys_ok n es hk, checkPathType_ok n "user" es hu,
          checkPathType_ok n "project" es h]
  | pyNone => simp [_validate_agent_dir] at h
  | str s => simp [_validate_agent_dir] at h
  | int m => simp [_validate_agent_dir] at h
  | bool b => simp [_validate_agent_dir] at h
  | list xs => simp [_validate_agent_dir] at h

/-- If the agent loop accepts, every key is a string and every agent
config has the right shape. -/
theorem checkAgents_ok (es : List (PyVal × PyVal)) (h : checkAgents es = .ok ()) :
    (es.all fun p => isStrVal p.1) = true ∧ (es.all fun p => agentEntryShape p.2) = true := by
  induction es with
  | nil => exact ⟨rfl, rfl⟩
  | cons p rest ih =>
    obtain ⟨k, v⟩ := p
    cases k with
    | str name =>
      simp only [checkAgents] at h
      cases hv : _validate_agent_dir name v with
      | error e => simp [hv] at h
      | ok u =>
        cases u
        simp only [hv] at h
        obtain ⟨h1, h2⟩ := ih h
        refine ⟨?_, ?_⟩
        · simp only [List.all_cons, h1, Bool.and_true]; rfl
        · simp only [List.all_cons, h2, Bool.and_true]
          exact _validate_agent_dir_ok name v hv
    | pyNone => simp [checkAgents] at h
    | int m => simp [checkAgents] at h
    | bool b => simp [checkAgents] at h
    | list xs => simp [checkAgents] at h
    | dict ds => simp [checkAgents] at h

/-- If `_validate_agent_dirs` accepts, the value has the glossary's
`agent_dirs` shape. -/
theorem _validate_agent_dirs_ok (v : PyVal) (h : _validate_agent_dirs v = .ok ()) :
    agentDirsShape v = true := by
  cases v with
  | dict es =>
    simp only [_validate_agent_dirs] at h
    by_cases he : es.isEmpty = true
    · rw [if_pos he] at h; cases h
    · rw [if_neg he] at h
      obtain ⟨h1, h2⟩ := checkAgents_ok es h
      simp [agentDirsShape, he, h1, h2]
  | pyNone => exact absurd h (by simp [_validate_agent_dirs])
  | str s => exact absurd h (by simp [_validate_agent_dirs])
  | int m => exact absurd h (by simp [_validate_agent_dirs])
  | bool b => exact absurd h (by simp [_validate_agent_dirs])
  | list xs => exact absurd h (by simp [_validate_agent_dirs])

/-- C6: `validate_config` accepts a configuration only if its
`agent_dirs` entry is a non-empty dict with string keys whose every
value is a dict with keys drawn from `user`/`project`, each present
value being `None` or a list of strings; and `is_valid` is `true`
exactly when the error list is empty. -/
theorem claim_C6_validate_config_shape (config : PyVal) :
    ((validate_config config).1 = true ↔ (validate_config config).2 = []) ∧
    ((validate_config config).1 = true →
      ∃ entries ad, config = PyVal.dict entries ∧
        lookupKey entries "agent_dirs" = some ad ∧ agentDirsShape ad = true) := by
  constructor
  · cases config with
    | dict entries => simp [validate_config, List.isEmpty_iff]
    | pyNone => simp [validate_config]
    | str s => simp [validate_config]
    | int n => simp [validate_config]
    | bool b => simp [validate_config]
    | list xs => simp [validate_config]
  · intro h
    cases config with
    | dict entries =>
      cases hl : lookupKey entries "agent_dirs" with
      | none =>
        exfalso
        simp [validate_config, hl, List.isEmpty_iff] at h
      | some ad =>
        cases hv : _validate_agent_dirs ad with
        | error e =>
          exfalso
          simp [validate_config, hl, hv, List.isEmpty_iff] at h
        | ok u =>
          cases u
          exact ⟨entries, ad, rfl, hl, _validate_agent_dirs_ok ad hv⟩
    | pyNone => simp [validate_config] at h
    | str s => simp [validate_config] at h
    | int n => simp [validate_config] at h
    | bool b => simp [validate_config] at h
    | list xs => simp [validate_config] at h

/-- A concrete well-formed configuration. -/
def cfgC6 : PyVal :=
  .dict [(.str "agent_dirs", .dict [(.str "claude",
    .dict [(.str "user", .list [.str "~/.claude/skills"])])])]

/-- Witness for C6 at a concrete configuration. -/
theorem claim_C6_validate_config_shape_witness :
    ((validate_config cfgC6).1 = true ↔ (validate_config cfgC6).2 = []) ∧
    (∃ entries ad, cfgC6 = PyVal.dict entries ∧
      lookupKey entries "agent_dirs" = some ad ∧ agentDirsShape ad = true) :=
  ⟨(claim_C6_validate_config_shape cfgC6).1,
    (claim_C6_validate_config_shape cfgC6).2 (by rfl)⟩

/-! ### Frontmatter parsing (`core.py`) -/

/-- YAML values as returned by `yaml.safe_load`.  Frontmatter mappings
are string-keyed, which is all the repository ever looks up. -/
inductive YVal where
  | str (s : String)
  | int (n : Int)
  | bool (b : Bool)
  | null
  | list (xs : List YVal)
  | map (entries : List (String × YVal))

/-- Search loop behind Python's `hay.find(needle, start)`: scan the
suffix from position `i`, returning the first index whose suffix starts
with `needle`. -/
def findSubAux (needle : List Char) : List Char → Nat → Option Nat
  | [], i => if needle.isEmpty then some i else Option.none
  | c :: rest, i =>
    if needle.isPrefixOf (c :: rest) then some i else findSubAux needle rest (i + 1)

/-- `hay.find(needle, start)` over codepoint lists, `none` standing for
Python's `-1`. -/
def findSubFrom (hay needle : List Char) (start : Nat) : Option Nat :=
  findSubAux needle (hay.drop start) start

/-- `parse_frontmatter` (core.py:73-92), parameterised by the
`yaml.safe_load` oracle `yamlLoad` (`.error` = `yaml.YAMLError` or any
other exception it raises) and by the outcome of reading the file
(`.error` = the open/read raised).  The function is total and returns
`Option`, which models the `try/except` returning `None` on every
failure: no exception escapes. -/
def parse_frontmatter (yamlLoad : List Char → Except Unit YVal)
    (readRes : Except Unit (List Char)) : Option (List (String × YVal)) :=
  match readRes with
  | .error _ => Option.none
  | .ok content =>
    if ("---\n".toList).isPrefixOf content then
      match findSubFrom content ("\n---\n".toList) 4 with
      | Option.none => Option.none
      | some endPos =>
        match yamlLoad ((content.drop 4).take (endPos - 4)) with
        | .ok (.map m) => some m
        | _ => Option.none
    else Option.none

/-- The search loop finds exactly the least match position at or after
its starting index. -/
theorem findSubAux_some_iff (needle : List Char) :
    ∀ (l : List Char) (i j : Nat),
      findSubAux needle l i = some j ↔
        i ≤ j ∧ needle <+: l.drop (j - i) ∧ ∀ k, k < j - i → ¬ needle <+: l.drop k := by
  intro l
  induction l with
  | nil =>
    intro i j
    simp only [findSubAux, List.drop_nil]
    by_cases hn : needle.isEmpty
    · rw [if_pos hn]
      rw [List.isEmpty_iff] at hn
      subst hn
      constructor
      · intro h
        cases h
        exact ⟨Nat.le_refl _, List.nil_prefix, fun k hk => absurd hk (by omega)⟩
      · rintro ⟨hij, -, hmin⟩
        have : j = i := by
          by_contra hne
          exact hmin 0 (by omega) List.nil_prefix
        rw [this]
    · rw [if_neg hn]
      constructor
      · intro h; cases h
      · rintro ⟨-, hpre, -⟩
        rw [List.prefix_nil] at hpre
        subst hpre
        simp at hn
  | cons c rest ih =>
    intro i j
    simp only [findSubAux]
    by_cases hp : needle.isPrefixOf (c :: rest) = true
    · rw [if_pos hp]
      rw [List.isPrefixOf_iff_prefix] at hp
      constructor
      · intro h
        cases h
        exact ⟨Nat.le_refl _, by simpa using hp, fun k hk => absurd hk (by omega)⟩
      · rintro ⟨hij, -, hmin⟩
        have : j = i := by
          by_contra hne
          exact hmin 0 (by omega) (by simpa using hp)
        rw [this]
    · rw [if_neg hp]
      rw [ih (i + 1) j]
      have hp' : ¬ needle <+: (c :: rest) := by
        rw [← List.isPrefixOf_iff_prefix]
        simpa using hp
      constructor
      · rintro ⟨hij, hpre, hmin⟩
        refine ⟨by omega, ?_, ?_⟩
        · have : j - i = (j - (i + 1)) + 1 := by omega
          rw [this]
          simpa using hpre
        · intro k hk
          match k with
          | 0 => simpa using hp'
          | Nat.succ k' =>
            have : k' < j - (i + 1) := by omega
            simpa using hmin k' this
      · rintro ⟨hij, hpre, hmin⟩
        have hji : i + 1 ≤ j := by
          rcases Nat.lt_or_ge i j with h1 | h1
          · omega
          · exfalso
            have : j - i = 0 := by omega
            rw [this] at hpre
            exact hp' (by simpa using hpre)
        refine ⟨hji, ?_, ?_⟩
        · have : j - i = (j - (i + 1)) + 1 := by omega
          rw [this] at hpre
          simpa using hpre
        · intro k hk
          have : k + 1 < j - i := by omega
          simpa using hmin (k + 1) this

/-- A failed search means there is no match position at all. -/
theorem findSubAux_none (needle : List Char) :
    ∀ (l : List Char) (i : Nat), findSubAux needle l i = Option.none →
      ∀ k, ¬ needle <+: l.drop k := by
  intro l
  induction l with
  | nil =>
    intro i h k
    simp only [findSubAux] at h
    by_cases hn : needle.isEmpty
    · rw [if_pos hn] at h; cases h
    · rw [List.drop_nil, List.prefix_nil]
      intro he
      subst he
      simp at hn
  | cons c rest ih =>
    intro i h k
    simp only [findSubAux] at h
    by_cases hp : needle.isPrefixOf (c :: rest) = true
    · rw [if_pos hp] at h; cases h
    · rw [if_neg hp] at h
      match k with
      | 0 =>
        rw [← List.isPrefixOf_iff_prefix]
        simpa using hp
      | Nat.succ k' => simpa using ih (i + 1) h k'

/-- A failed `findSubFrom` means there is no occurrence at or after
`start`. -/
theorem findSubFrom_none (hay needle : List Char) (start : Nat)
    (h : findSubFrom hay needle start = Option.none) :
    ∀ k, start ≤ k → ¬ needle <+: hay.drop k := by
  intro k hk
  have := findSubAux_none needle (hay.drop start) start h (k - start)
  rw [List.drop_drop] at this
  have he : start + (k - start) = k := by omega
  rwa [he] at this

/-- `findSubFrom` finds exactly the least occurrence at or after
`start`. -/
theorem findSubFrom_some_iff (hay needle : List Char) (start j : Nat) :
    findSubFrom hay needle start = some j ↔
      start ≤ j ∧ needle <+: hay.drop j ∧
        ∀ k, start ≤ k → k < j → ¬ needle <+: hay.drop k := by
  unfold findSubFrom
  rw [findSubAux_some_iff]
  constructor
  · rintro ⟨hij, hpre, hmin⟩
    refine ⟨hij, ?_, ?_⟩
    · rw [List.drop_drop] at hpre
      have : start + (j - start) = j := by omega
      rwa [this] at hpre
    · intro k hk1 hk2
      have := hmin (k - start) (by omega)
      rw [List.drop_drop] at this
      have he : start + (k - start) = k := by omega
      rwa [he] at this
  · rintro ⟨hij, hpre, hmin⟩
    refine ⟨hij, ?_, ?_⟩
    · rw [List.drop_drop]
      have : start + (j - start) = j := by omega
      rwa [this]
    · intro k hk
      rw [List.drop_drop]
      exact hmin (start + k) (by omega) (by omega)

/-- C4: `parse_frontmatter` returns a mapping iff the content was read,
starts with the exact prefix `---\n`, a closing `\n---\n` delimiter
occurs later in the content (at codepoint index at least 4), and the
text between the opening line and the first such closing delimiter
parses as a YAML mapping; in every other case (including a failed read
and a YAML error) it returns `none` — and being a total function into
`Option`, it never raises. -/
theorem claim_C4_parse_frontmatter_spec (yamlLoad : List Char → Except Unit YVal)
    (readRes : Except Unit (List Char)) (m : List (String × YVal)) :
    parse_frontmatter yamlLoad readRes = some m ↔
      ∃ content, readRes = .ok content ∧
        ("---\n".toList) <+: content ∧
        ∃ i, 4 ≤ i ∧ ("\n---\n".toList) <+: content.drop i ∧
          (∀ j, 4 ≤ j → j < i → ¬ ("\n---\n".toList) <+: content.drop j) ∧
          yamlLoad ((content.drop 4).take (i - 4)) = .ok (.map m) := by
  cases readRes with
  | error e =>
    simp only [parse_frontmatter]
    constructor
    · intro h; cases h
    · rintro ⟨content, hc, -⟩; cases hc
  | ok content =>
    simp only [parse_frontmatter]
    by_cases hpre : ("---\n".toList).isPrefixOf content = true
    · rw [if_pos hpre]
      rw [List.isPrefixOf_iff_prefix] at hpre
      cases hf : findSubFrom content ("\n---\n".toList) 4 with
      | none =>
        constructor
        · intro h; cases h
        · rintro ⟨c2, hc2, -, i, hi4, hocc, hmin, -⟩
          cases hc2
          exact absurd hocc (findSubFrom_none _ _ _ hf i hi4)
      | some endPos =>
        dsimp only
        rw [findSubFrom_some_iff] at hf
        obtain ⟨he4, hocc, hminE⟩ := hf
        constructor
        · intro h
          revert h
          cases hy : yamlLoad ((content.drop 4).take (endPos - 4)) with
          | error e => intro h; cases h
          | ok v =>
            cases v with
            | map mm =>
              intro h
              cases h
              exact ⟨content, rfl, hpre, endPos, he4, hocc, hminE, hy⟩
            | str s => intro h; cases h
            | int n => intro h; cases h
            | bool b => intro h; cases h
            | null => intro h; cases h
            | list xs => intro h; cases h
        · rintro ⟨c2, hc2, -, i, hi4, hocc2, hmin2, hy⟩
          cases hc2
          -- the two least occurrences coincide
          have : i = endPos := by
            rcases Nat.lt_trichotomy i endPos with hlt | heq | hgt
            · exact absurd hocc2 (hminE i hi4 hlt)
            · exact heq
            · exact absurd hocc (hmin2 endPos he4 hgt)
          subst this
          rw [hy]
    · rw [if_neg hpre]
      constructor
      · intro h; cases h
      · rintro ⟨c2, hc2, hp2, -⟩
        cases hc2
        rw [← List.isPrefixOf_iff_prefix] at hp2
        exact absurd hp2 hpre

/-! ### Skill discovery in a directory tree (`core.py:190-230`) -/

/-- A directory: its entry name, the outcome of reading its `SKILL.md`
(`Option.none` = no such file, `.error` = the read raises), and its
subdirectories in `os.walk` order. -/
inductive DirTree where
  | node (name : String) (skillMd : Option (Except Unit (List Char))) (children : List DirTree)

/-- The directory's entry name. -/
def DirTree.name : DirTree → String
  | .node n _ _ => n

/-- The directory's `SKILL.md` read outcome, if the file exists. -/
def DirTree.skillMd : DirTree → Option (Except Unit (List Char))
  | .node _ md _ => md

/-- The subdirectories. -/
def DirTree.children : DirTree → List DirTree
  | .node _ _ cs => cs

/-- One discovered-skill dict (core.py:220-228). -/
structure Entry where
  name : String
  description : String
  path : List String
  rel_path : String
  folder_name : String
  deriving DecidableEq, Repr

/-- Python truthiness of a YAML value. -/
def truthyY : YVal → Bool
  | .str s => !s.isEmpty
  | .int n => n != 0
  | .bool b => b
  | .null => false
  | .list xs => !xs.isEmpty
  | .map m => !m.isEmpty

/-- Python `str()` of a YAML value; containers get a simplified
rendering (no claim depends on it). -/
def yStr : YVal → String
  | .str s => s
  | .int n => toString n
  | .bool b => if b then "True" else "False"
  | .null => "None"
  | .list _ => "<list>"
  | .map _ => "<map>"

/-- `fm.get(k)` on a frontmatter mapping. -/
def lookupY (m : List (String × YVal)) (k : String) : Option YVal :=
  match m.find? (fun p => p.1 == k) with
  | some p => some p.2
  | Option.none => Option.none

/-- `s.replace("\n", " ")`: for a single-character pattern this is a
character map. -/
def replaceNl (s : String) : String :=
  String.mk (s.toList.map (fun c => if c = '\n' then ' ' else c))

/-- `_format_relative_path` (core.py:144-153) on the walk's paths,
which always lie below the base (so the `../` branch never fires). -/
def formatRel (base self : List String) : String :=
  if self = base then "./"
  else "./" ++ String.intercalate "/" (self.drop base.length)

/-- The per-directory body of the walk (core.py:209-228): if the
directory has a `SKILL.md` whose frontmatter parses to a truthy mapping
and whose `description` is truthy, emit one entry; the entry's name
falls back to the folder name when `name` is missing or falsy. -/
def entryAt (yamlLoad : List Char → Except Unit YVal) (base self : List String)
    (md : Option (Except Unit (List Char))) : List Entry :=
  match md with
  | Option.none => []
  | some readRes =>
    match parse_frontmatter yamlLoad readRes with
    | Option.none => []
    | some fm =>
      if fm.isEmpty then []
      else
        let folderName := self.getLastD ""
        let nm :=
          match lookupY fm "name" with
          | some v => if truthyY v then yStr v else folderName
          | Option.none => folderName
        match lookupY fm "description" with
        | some v =>
          if truthyY v then
            [{ name := nm, description := replaceNl (yStr v), path := self,
               rel_path := formatRel base self, folder_name := folderName }]
          else []
        | Option.none => []

/-- The `os.walk` loop of `discover_skills_in_tree` (core.py:203-228),
with `fuel = max_depth - depth + 1` as the decreasing measure: a node
with zero fuel is at depth `max_depth + 1`, so the loop takes the
`depth > max_depth` branch — no entry, children pruned
(`dirs[:] = []`). -/
def walkDiscover (yamlLoad : List Char → Except Unit YVal) (base : List String) :
    Nat → List String → DirTree → List Entry
  | 0, _, _ => []
  | fuel + 1, self, t =>
    entryAt yamlLoad base self t.skillMd ++
      (t.children.map (fun c => walkDiscover yamlLoad base fuel (self ++ [c.name]) c)).flatten

/-- `discover_skills_in_tree` (core.py:190-230) on the tree rooted at
the expanded base directory (an absent base directory is the empty
result, not modelled further). -/
def discover_skills_in_tree (yamlLoad : List Char → Except Unit YVal)
    (base : List String) (t : DirTree) (maxDepth : Nat := 3) : List Entry :=
  walkDiscover yamlLoad base (maxDepth + 1) base t

/-- The directories `os.walk` yields during the same traversal: nodes
up to depth `max_depth + 1` (the ones below depth `max_depth` are
yielded once and pruned). -/
def walkVisited : Nat → List String → DirTree → List (List String)
  | 0, self, _ => [self]
  | fuel + 1, self, t =>
    self :: (t.children.map (fun c => walkVisited fuel (self ++ [c.name]) c)).flatten

/-- The nodes the walk processes (depth at most `max_depth`), paired
with their paths. -/
def processedNodes : Nat → List String → DirTree → List (List String × DirTree)
  | 0, _, _ => []
  | fuel + 1, self, t =>
    (self, t) ::
      (t.children.map (fun c => processedNodes fuel (self ++ [c.name]) c)).flatten

/-- Well-formedness of a directory tree: sibling names are distinct at
every node (true of every real filesystem directory). -/
inductive GoodTree : DirTree → Prop
  | node : ∀ nm md cs, (cs.map DirTree.name).Nodup → (∀ c ∈ cs, GoodTree c) →
      GoodTree (.node nm md cs)

/-- Full description of any entry the per-directory body yields. -/
theorem entryAt_spec (yl : List Char → Except Unit YVal) (base self : List String)
    (md : Option (Except Unit (List Char))) (e : Entry)
    (h : e ∈ entryAt yl base self md) :
    e.path = self ∧ e.rel_path = formatRel base self ∧ e.folder_name = self.getLastD "" ∧
    ∃ readRes fm, md = some readRes ∧ parse_frontmatter yl readRes = some fm ∧
      fm.isEmpty = false ∧
      ∃ v, lookupY fm "description" = some v ∧ truthyY v = true ∧
        e.description = replaceNl (yStr v) ∧
        e.name = (match lookupY fm "name" with
          | some w => if truthyY w then yStr w else self.getLastD ""
          | Option.none => self.getLastD "") := by
  cases md with
  | none => simp [entryAt] at h
  | some readRes =>
    cases hp : parse_frontmatter yl readRes with
    | none => simp [entryAt, hp] at h
    | some fm =>
      simp only [entryAt, hp] at h
      by_cases he : fm.isEmpty = true
      · rw [if_pos he] at h
        simp at h
      · rw [if_neg he] at h
        cases hd : lookupY fm "description" with
        | none => simp only [hd] at h; simp at h
        | some v =>
          simp only [hd] at h
          by_cases ht : truthyY v = true
          · rw [if_pos ht] at h
            simp only [List.mem_singleton] at h
            subst h
            refine ⟨rfl, rfl, rfl, readRes, fm, rfl, hp, by simpa using he,
              v, hd, ht, rfl, rfl⟩
          · rw [if_neg ht] at h
            simp at h

/-- The body yields no entry or exactly one. -/
theorem entryAt_small (yl : List Char → Except Unit YVal) (base self : List String)
    (md : Option (Except Unit (List Char))) :
    entryAt yl base self md = [] ∨ ∃ e, entryAt yl base self md = [e] := by
  cases md with
  | none => exact Or.inl rfl
  | some readRes =>
    cases hp : parse_frontmatter yl readRes with
    | none => simp [entryAt, hp]
    | some fm =>
      simp only [entryAt, hp]
      by_cases he : fm.isEmpty = true
      · rw [if_pos he]; exact Or.inl rfl
      · rw [if_neg he]
        cases hd : lookupY fm "description" with
        | none => simp
        | some v =>
          simp only
          by_cases ht : truthyY v = true
          · rw [if_pos ht]; exact Or.inr ⟨_, rfl⟩
          · rw [if_neg ht]; exact Or.inl rfl

/-- Every entry path extends the start path and stays within the fuel
bound. -/
theorem walkDiscover_path_bound (yl : List Char → Except Unit YVal) (base : List String) :
    ∀ (fuel : Nat) (self : List String) (t : DirTree) (e : Entry),
      e ∈ walkDiscover yl base fuel self t →
        self <+: e.path ∧ e.path.length + 1 ≤ self.length + fuel := by
  intro fuel
  induction fuel with
  | zero => intro self t e he; simp [walkDiscover] at he
  | succ f ih =>
    intro self t e he
    simp only [walkDiscover, List.mem_append, List.mem_flatten, List.mem_map] at he
    rcases he with he | ⟨l, ⟨c, hc, rfl⟩, hel⟩
    · obtain ⟨hpath, -⟩ := entryAt_spec yl base self t.skillMd e he
      rw [hpath]
      exact ⟨List.prefix_refl _, by omega⟩
    · obtain ⟨hpre, hlen⟩ := ih (self ++ [c.name]) c e hel
      refine ⟨(List.prefix_append _ _).trans hpre, ?_⟩
      simp only [List.length_append, List.length_cons, List.length_nil] at hlen
      omega

/-- Every visited path extends the start path. -/
theorem walkVisited_prefix_self :
    ∀ (fuel : Nat) (self : List String) (t : DirTree) (p : List String),
      p ∈ walkVisited fuel self t → self <+: p := by
  intro fuel
  induction fuel with
  | zero =>
    intro self t p hp
    simp only [walkVisited, List.mem_singleton] at hp
    subst hp
    exact List.prefix_refl _
  | succ f ih =>
    intro self t p hp
    simp only [walkVisited, List.mem_cons, List.mem_flatten, List.mem_map] at hp
    rcases hp with rfl | ⟨l, ⟨c, hc, rfl⟩, hpl⟩
    · exact List.prefix_refl _
    · exact (List.prefix_append _ _).trans (ih (self ++ [c.name]) c p hpl)

/-- Two snoc-extensions of the same path that prefix the same list have
the same last component. -/
theorem prefix_snoc_inj (self : List String) (a b : String) (p : List String)
    (ha : self ++ [a] <+: p) (hb : self ++ [b] <+: p) : a = b := by
  rcases List.prefix_or_prefix_of_prefix ha hb with h | h
  · have h2 : self ++ [a] = self ++ [b] := h.eq_of_length (by simp)
    have h3 : [a] = [b] := List.append_cancel_left h2
    simpa using h3
  · have h2 : self ++ [b] = self ++ [a] := h.eq_of_length (by simp)
    have h3 : [b] = [a] := List.append_cancel_left h2
    simpa using h3.symm

/-- With distinct sibling names the walk visits no directory twice. -/
theorem walkVisited_nodup :
    ∀ (fuel : Nat) (self : List String) (t : DirTree), GoodTree t →
      (walkVisited fuel self t).Nodup := by
  intro fuel
  induction fuel with
  | zero => intro self t _; simp [walkVisited]
  | succ f ih =>
    intro self t hg
    cases hg with
    | node nm md cs hnames hchild =>
      simp only [walkVisited]
      rw [List.nodup_cons]
      constructor
      · -- the root path is shorter than every descendant path
        intro hmem
        rw [List.mem_flatten] at hmem
        obtain ⟨l, hl, hself⟩ := hmem
        rw [List.mem_map] at hl
        obtain ⟨c, hc, rfl⟩ := hl
        have hpre := walkVisited_prefix_self f (self ++ [c.name]) c self hself
        have := hpre.length_le
        simp at this
      · rw [List.nodup_flatten]
        constructor
        · intro l hl
          rw [List.mem_map] at hl
          obtain ⟨c, hc, rfl⟩ := hl
          exact ih (self ++ [c.name]) c (hchild c hc)
        · rw [List.pairwise_map]
          have hpw : cs.Pairwise (fun a b => a.name ≠ b.name) :=
            List.pairwise_map.mp hnames
          refine hpw.imp ?_
          intro c1 c2 hne p hp1 hp2
          exact hne (prefix_snoc_inj self c1.name c2.name p
            (walkVisited_prefix_self f _ c1 p hp1) (walkVisited_prefix_self f _ c2 p hp2))

/-- With distinct sibling names the walk yields at most one entry per
directory: the entry paths are distinct. -/
theorem walkDiscover_paths_nodup (yl : List Char → Except Unit YVal) (base : List String) :
    ∀ (fuel : Nat) (self : List String) (t : DirTree), GoodTree t →
      ((walkDiscover yl base fuel self t).map Entry.path).Nodup := by
  intro fuel
  induction fuel with
  | zero => intro self t _; simp [walkDiscover]
  | succ f ih =>
    intro self t hg
    cases hg with
    | node nm md cs hnames hchild =>
      simp only [walkDiscover]
      rw [List.map_append, List.nodup_append]
      refine ⟨?_, ?_, ?_⟩
      · rcases entryAt_small yl base self (DirTree.skillMd (.node nm md cs)) with h0 | ⟨e, h1⟩
        · rw [h0]; exact List.nodup_nil
        · rw [h1]; simp
      · rw [List.map_flatten, List.nodup_flatten]
        constructor
        · intro l hl
          rw [List.mem_map] at hl
          obtain ⟨l2, hl2, rfl⟩ := hl
          rw [List.mem_map] at hl2
          obtain ⟨c, hc, rfl⟩ := hl2
          exact ih (self ++ [c.name]) c (hchild c hc)
        · rw [List.pairwise_map, List.pairwise_map]
          have hpw : cs.Pairwise (fun a b => a.name ≠ b.name) :=
            List.pairwise_map.mp hnames
          refine hpw.imp ?_
          intro c1 c2 hne p hp1 hp2
          rw [List.mem_map] at hp1 hp2
          obtain ⟨e1, he1, rfl⟩ := hp1
          obtain ⟨e2, he2, hpe⟩ := hp2
          have hb1 := (walkDiscover_path_bound yl base f _ c1 e1 he1).1
          have hb2 := (walkDiscover_path_bound yl base f _ c2 e2 he2).1
          rw [hpe] at hb2
          exact hne (prefix_snoc_inj self c1.name c2.name e1.path hb1 hb2)
      · -- the root entry's path is shorter than every child entry's path
        intro p hp hmem
        rw [List.mem_map] at hp
        obtain ⟨e, he, rfl⟩ := hp
        obtain ⟨hpath, -⟩ := entryAt_spec yl base self _ e he
        rw [List.map_flatten, List.mem_flatten] at hmem
        obtain ⟨l, hl, hself⟩ := hmem
        rw [List.mem_map] at hl
        obtain ⟨l2, hl2, rfl⟩ := hl
        rw [List.mem_map] at hl2
        obtain ⟨c, hc, rfl⟩ := hl2
        rw [List.mem_map] at hself
        obtain ⟨e2, he2, hpe⟩ := hself
        have hb2 := (walkDiscover_path_bound yl base f _ c e2 he2).1
        have := hb2.length_le
        rw [hpe, hpath] at this
        simp at this

/-- C5: the discovery walk is bounded and single-pass: with distinct
sibling names it visits each directory at most once, yields at most one
entry per directory (the entry paths are pairwise distinct), and every
entry's path lies at most `maxDepth` directory levels below the base;
deeper directories are pruned and contribute no entries. -/
theorem claim_C5_discover_bounded_single_pass (yl : List Char → Except Unit YVal)
    (base : List String) (t : DirTree) (maxDepth : Nat) (hg : GoodTree t) :
    (walkVisited (maxDepth + 1) base t).Nodup ∧
    ((discover_skills_in_tree yl base t maxDepth).map Entry.path).Nodup ∧
    ∀ e ∈ discover_skills_in_tree yl base t maxDepth,
      base <+: e.path ∧ e.path.length ≤ base.length + maxDepth := by
  refine ⟨walkVisited_nodup (maxDepth + 1) base t hg,
    walkDiscover_paths_nodup yl base (maxDepth + 1) base t hg, ?_⟩
  intro e he
  obtain ⟨h1, h2⟩ := walkDiscover_path_bound yl base (maxDepth + 1) base t e he
  exact ⟨h1, by omega⟩

/-- A two-level concrete tree with distinct sibling names. -/
def treeC5 : DirTree :=
  .node "r" Option.none [DirTree.node "a" Option.none [], DirTree.node "b" Option.none []]

/-- `treeC5` has distinct sibling names. -/
theorem treeC5_good : GoodTree treeC5 := by
  refine GoodTree.node _ _ _ (by simp [DirTree.name]) ?_
  intro c hc
  simp only [List.mem_cons, List.not_mem_nil, or_false] at hc
  rcases hc with rfl | rfl
  · exact GoodTree.node _ _ _ (by simp) (by intro c hc; simp at hc)
  · exact GoodTree.node _ _ _ (by simp) (by intro c hc; simp at hc)

/-- Witness for C5 at a concrete tree. -/
theorem claim_C5_discover_bounded_single_pass_witness :
    (walkVisited (3 + 1) ["base"] treeC5).Nodup ∧
    ((discover_skills_in_tree (fun _ => .error ()) ["base"] treeC5 3).map Entry.path).Nodup ∧
    ∀ e ∈ discover_skills_in_tree (fun _ => .error ()) ["base"] treeC5 3,
      ["base"] <+: e.path ∧ e.path.length ≤ ["base"].length + 3 :=
  claim_C5_discover_bounded_single_pass (fun _ => .error ()) ["base"] treeC5 3 treeC5_good

/-- Every entry the walk yields comes from a processed node at the
entry's path whose `SKILL.md` frontmatter parses to a mapping with a
truthy `description`; the entry's name defaults to the folder name when
`name` is missing or falsy. -/
theorem walkDiscover_entry_source (yl : List Char → Except Unit YVal) (base : List String) :
    ∀ (fuel : Nat) (self : List String) (t : DirTree) (e : Entry),
      e ∈ walkDiscover yl base fuel self t →
        ∃ nd : DirTree, (e.path, nd) ∈ processedNodes fuel self t ∧
          ∃ readRes fm, nd.skillMd = some readRes ∧
            parse_frontmatter yl readRes = some fm ∧
            ∃ v, lookupY fm "description" = some v ∧ truthyY v = true ∧
              e.name = (match lookupY fm "name" with
                | some w => if truthyY w then yStr w else e.folder_name
                | Option.none => e.folder_name) := by
  intro fuel
  induction fuel with
  | zero => intro self t e he; simp [walkDiscover] at he
  | succ f ih =>
    intro self t e he
    simp only [walkDiscover, List.mem_append, List.mem_flatten, List.mem_map] at he
    rcases he with he | ⟨l, ⟨c, hc, rfl⟩, hel⟩
    · obtain ⟨hpath, hrel, hfold, readRes, fm, hmd, hp, hne, v, hd, ht, hdesc, hname⟩ :=
        entryAt_spec yl base self t.skillMd e he
      refine ⟨t, ?_, readRes, fm, hmd, hp, v, hd, ht, ?_⟩
      · simp only [processedNodes]
        rw [hpath]
        exact List.mem_cons_self _ _
      · rw [hfold]
        exact hname
    · obtain ⟨nd, hmem, rest⟩ := ih (self ++ [c.name]) c e hel
      refine ⟨nd, ?_, rest⟩
      simp only [processedNodes, List.mem_cons, List.mem_flatten, List.mem_map]
      exact Or.inr ⟨_, ⟨c, hc, rfl⟩, hmem⟩

/-- C3 (amended): every entry returned by `discover_skills_in_tree`
comes from a directory whose `SKILL.md` frontmatter parses to a YAML
mapping containing a `description` key with a truthy value; a `name`
key is not required — when it is missing or falsy the entry's name is
the directory's folder name. -/
theorem claim_C3_discovered_entries_described (yl : List Char → Except Unit YVal)
    (base : List String) (t : DirTree) (maxDepth : Nat) :
    ∀ e ∈ discover_skills_in_tree yl base t maxDepth,
      ∃ nd : DirTree, (e.path, nd) ∈ processedNodes (maxDepth + 1) base t ∧
        ∃ readRes fm, nd.skillMd = some readRes ∧
          parse_frontmatter yl readRes = some fm ∧
          ∃ v, lookupY fm "description" = some v ∧ truthyY v = true ∧
            e.name = (match lookupY fm "name" with
              | some w => if truthyY w then yStr w else e.folder_name
              | Option.none => e.folder_name) :=
  fun e he => walkDiscover_entry_source yl base (maxDepth + 1) base t e he

/-- The YAML oracle for the C3 instance: the frontmatter text parses to
a mapping with only a `description` key. -/
def ylC3 : List Char → Except Unit YVal := fun s =>
  if s = "description: x".toList then .ok (.map [("description", YVal.str "x")])
  else .error ()

/-- A `SKILL.md` whose frontmatter has a `description` but no `name`. -/
def skillMdC3 : List Char := "---\ndescription: x\n---\nbody".toList

/-- A base directory whose `SKILL.md` is `skillMdC3`. -/
def treeC3 : DirTree := .node "base" (some (.ok skillMdC3)) []

/-- The entry the walk returns for `treeC3`. -/
def entryC3 : Entry :=
  { name := "base", description := "x", path := ["base"], rel_path := "./",
    folder_name := "base" }

/-- Evaluation of the discovery on the C3 instance. -/
theorem discoverC3_eval :
    discover_skills_in_tree ylC3 ["base"] treeC3 = [entryC3] := by
  rfl

/-- C3 counterexample: this discovery returns an entry whose directory's
`SKILL.md` frontmatter parses to a mapping with no `name` key, so not
every returned entry has frontmatter providing both `name` and
`description`. -/
theorem claim_C3_counterexample :
    discover_skills_in_tree ylC3 ["base"] treeC3 = [entryC3] ∧
    treeC3.skillMd = some (.ok skillMdC3) ∧
    parse_frontmatter ylC3 (.ok skillMdC3) = some [("description", YVal.str "x")] ∧
    lookupY [("description", YVal.str "x")] "name" = Option.none :=
  ⟨discoverC3_eval, rfl, by rfl, rfl⟩

/-- Witness for the amended C3 at the concrete instance. -/
theorem claim_C3_discovered_entries_described_witness :
    ∃ nd : DirTree, (entryC3.path, nd) ∈ processedNodes (3 + 1) ["base"] treeC3 ∧
      ∃ readRes fm, nd.skillMd = some readRes ∧
        parse_frontmatter ylC3 readRes = some fm ∧
        ∃ v, lookupY fm "description" = some v ∧ truthyY v = true ∧
          entryC3.name = (match lookupY fm "name" with
            | some w => if truthyY w then yStr w else entryC3.folder_name
            | Option.none => entryC3.folder_name) :=
  claim_C3_discovered_entries_described ylC3 ["base"] treeC3 3 entryC3
    (by rw [discoverC3_eval]; exact List.mem_singleton.mpr rfl)

/-! ### Copying a skill tree (`core.py:339-357`, `install.py:36-45`) -/

/-- A filesystem snapshot: the directories and files that exist, as
absolute normalised component paths. -/
structure FS where
  dirs : List (List String)
  files : List (List String)
  deriving DecidableEq, Repr

/-- `os.path.isdir`. -/
def FS.isDir (fs : FS) (p : List String) : Prop := p ∈ fs.dirs

/-- `os.path.isfile`. -/
def FS.isFile (fs : FS) (p : List String) : Prop := p ∈ fs.files

/-- `os.path.exists`. -/
def FS.existsPath (fs : FS) (p : List String) : Prop := fs.isDir p ∨ fs.isFile p

instance (fs : FS) (p : List String) : Decidable (fs.isDir p) :=
  inferInstanceAs (Decidable (p ∈ fs.dirs))

instance (fs : FS) (p : List String) : Decidable (fs.isFile p) :=
  inferInstanceAs (Decidable (p ∈ fs.files))

instance (fs : FS) (p : List String) : Decidable (fs.existsPath p) :=
  inferInstanceAs (Decidable (_ ∨ _))

/-- `os.makedirs(p, exist_ok=True)`: raises (`none`) when a prefix of
`p` exists as a file, otherwise creates every missing directory on the
path. -/
def makedirs (fs : FS) (p : List String) : Option FS :=
  if ∃ q ∈ p.inits, fs.isFile q then Option.none
  else some { fs with dirs := p.inits ++ fs.dirs }

/-- Outcome of a `shutil.copytree` call: success, or an `OSError`
raised after some parts of the destination were created
(`shutil.copytree` copies what it can and raises `shutil.Error`, an
`OSError` subclass, at the end; partially copied trees are not
removed).  The partial results are paths relative to the destination. -/
inductive CopyOutcome where
  | ok
  | err (partialDirs partialFiles : List (List String))

/-- The paths under `src`, re-rooted at `dst`. -/
def rerootUnder (src dst : List String) (ps : List (List String)) : List (List String) :=
  (ps.filter (fun p => src.isPrefixOf p)).map (fun p => dst ++ p.drop src.length)

/-- `shutil.copytree src dst` under the outcome oracle: on success the
whole subtree of `src` appears under `dst`; on failure only the
oracle's partial paths under `dst` appear, and the error propagates. -/
def copytree (outcome : CopyOutcome) (fs : FS) (src dst : List String) : Except FS FS :=
  match outcome with
  | .ok =>
    .ok { dirs := dst :: rerootUnder src dst fs.dirs ++ fs.dirs,
          files := rerootUnder src dst fs.files ++ fs.files }
  | .err pd pf =>
    .error { dirs := pd.map (fun q => dst ++ q) ++ fs.dirs,
             files := pf.map (fun q => dst ++ q) ++ fs.files }

/-- `copy_skill_tree` (core.py:339-357).  Paths are absolute and
normalised, so `os.path.abspath` is the identity and
`os.path.join(root, os.path.basename(src))` is `root ++ [src.getLastD ""]`;
`os.path.expanduser` is the oracle `expand`.  Returns `none` when
`os.makedirs` raises, mirroring the uncaught exception. -/
def copy_skill_tree (expand : List String → List String) (outcome : CopyOutcome)
    (fs : FS) (source destinationRoot : List String) :
    Option (String × List String × FS) :=
  let destinationRootExp := expand destinationRoot
  match makedirs fs destinationRootExp with
  | Option.none => Option.none
  | some fs1 =>
    let destinationPath := destinationRootExp ++ [source.getLastD ""]
    if destinationPath = source then some ("same", destinationPath, fs1)
    else if fs1.existsPath destinationPath then some ("exists", destinationPath, fs1)
    else
      match copytree outcome fs1 source destinationPath with
      | .ok fs2 => some ("installed", destinationPath, fs2)
      | .error fs2 => some ("error", destinationPath, fs2)

/-- `_copy_skill_tree_test` (install.py:36-45): the same checks with no
filesystem operation; the filesystem after the call is returned
unchanged. -/
def _copy_skill_tree_test (expand : List String → List String) (fs : FS)
    (source destinationRoot : List String) : String × List String × FS :=
  let destinationRootExp := expand destinationRoot
  let destinationPath := destinationRootExp ++ [source.getLastD ""]
  if destinationPath = source then ("same", destinationPath, fs)
  else if fs.existsPath destinationPath then ("exists", destinationPath, fs)
  else ("would_install", destinationPath, fs)

/-- What a successful `makedirs` does. -/
theorem makedirs_some (fs : FS) (p : List String) (fs1 : FS)
    (h : makedirs fs p = some fs1) :
    fs1.dirs = p.inits ++ fs.dirs ∧ fs1.files = fs.files := by
  unfold makedirs at h
  split at h
  · cases h
  · cases h
    exact ⟨rfl, rfl⟩

/-- Paths extending the destination path are untouched by `makedirs` of
the destination root. -/
theorem makedirs_frame_below (fs : FS) (r : List String) (fs1 : FS)
    (h : makedirs fs r = some fs1) (b : String) (q : List String)
    (hq : r ++ [b] <+: q) :
    (fs1.isDir q ↔ fs.isDir q) ∧ (fs1.isFile q ↔ fs.isFile q) := by
  obtain ⟨hd, hf⟩ := makedirs_some fs r fs1 h
  constructor
  · unfold FS.isDir
    rw [hd, List.mem_append, List.mem_inits]
    constructor
    · rintro (hqr | hmem)
      · exfalso
        have h1 := hq.length_le
        have h2 := hqr.length_le
        simp only [List.length_append, List.length_cons, List.length_nil] at h1
        omega
      · exact hmem
    · exact Or.inr
  · unfold FS.isFile
    rw [hf]

/-- C1: `copy_skill_tree` avoids overwrites and self-copies.  Whenever
it returns, the reported path is the destination root joined with the
source's basename; if that path equals the source the status is
`"same"`, otherwise if it already exists the status is `"exists"`, and
in both cases the contents at or below the destination path are
unchanged (no copy is performed); only when the destination path does
not exist is the tree copied — `"installed"` on success, `"error"` when
`shutil.copytree` raises an `OSError`. -/
theorem claim_C1_copy_skill_tree_statuses
    (expand : List String → List String) (outcome : CopyOutcome)
    (fs : FS) (source destRoot : List String) (st : String) (p : List String) (fs2 : FS)
    (h : copy_skill_tree expand outcome fs source destRoot = some (st, p, fs2)) :
    p = expand destRoot ++ [source.getLastD ""] ∧
    (p = source →
      st = "same" ∧
        ∀ q, p <+: q → ((fs2.isDir q ↔ fs.isDir q) ∧ (fs2.isFile q ↔ fs.isFile q))) ∧
    (p ≠ source → fs.existsPath p →
      st = "exists" ∧
        ∀ q, p <+: q → ((fs2.isDir q ↔ fs.isDir q) ∧ (fs2.isFile q ↔ fs.isFile q))) ∧
    (p ≠ source → ¬ fs.existsPath p →
      (outcome = CopyOutcome.ok → st = "installed") ∧
      ∀ pd pf, outcome = CopyOutcome.err pd pf → st = "error") := by
  unfold copy_skill_tree at h
  cases hm : makedirs fs (expand destRoot) with
  | none => simp only [hm] at h; cases h
  | some fs1 =>
    simp only [hm] at h
    have hframe := makedirs_frame_below fs (expand destRoot) fs1 hm (source.getLastD "")
    have hex_iff :
        fs1.existsPath (expand destRoot ++ [source.getLastD ""]) ↔
          fs.existsPath (expand destRoot ++ [source.getLastD ""]) := by
      obtain ⟨hd, hf⟩ := hframe _ (List.prefix_refl _)
      unfold FS.existsPath
      rw [hd, hf]
    by_cases h1 : expand destRoot ++ [source.getLastD ""] = source
    · rw [if_pos h1] at h
      cases h
      exact ⟨rfl, fun _ => ⟨rfl, fun q hq => hframe q hq⟩,
        fun hne _ => absurd h1 hne, fun hne _ => absurd h1 hne⟩
    · rw [if_neg h1] at h
      by_cases h2 : fs1.existsPath (expand destRoot ++ [source.getLastD ""])
      · rw [if_pos h2] at h
        cases h
        exact ⟨rfl, fun hp => absurd hp h1,
          fun _ _ => ⟨rfl, fun q hq => hframe q hq⟩,
          fun _ hnex => absurd (hex_iff.mp h2) hnex⟩
      · rw [if_neg h2] at h
        cases outcome with
        | ok =>
          simp only [copytree] at h
          cases h
          refine ⟨rfl, fun hp => absurd hp h1,
            fun _ hex => absurd (hex_iff.mpr hex) h2,
            fun _ _ => ⟨fun _ => rfl, fun pd pf heq => ?_⟩⟩
          cases heq
        | err pd0 pf0 =>
          simp only [copytree] at h
          cases h
          refine ⟨rfl, fun hp => absurd hp h1,
            fun _ hex => absurd (hex_iff.mpr hex) h2,
            fun _ _ => ⟨fun heq => ?_, fun pd pf _ => rfl⟩⟩
          cases heq

/-- The C1 witness instance: empty filesystem, identity expansion. -/
def fsC1 : FS := { dirs := [], files := [] }

/-- Witness for C1 at a concrete self-copy. -/
theorem claim_C1_copy_skill_tree_statuses_witness :
    (["dst", "skill"] : List String) = ["dst"] ++ [(["dst", "skill"] : List String).getLastD ""] ∧
    ((["dst", "skill"] : List String) = ["dst", "skill"] →
      "same" = "same" ∧
        ∀ q, (["dst", "skill"] : List String) <+: q →
          ((FS.isDir { dirs := [[], ["dst"]], files := [] } q ↔ fsC1.isDir q) ∧
           (FS.isFile { dirs := [[], ["dst"]], files := [] } q ↔ fsC1.isFile q))) := by
  have hrun : copy_skill_tree id CopyOutcome.ok fsC1 ["dst", "skill"] ["dst"] =
      some ("same", ["dst", "skill"], { dirs := [[], ["dst"]], files := [] }) := by rfl
  have hmain := claim_C1_copy_skill_tree_statuses id CopyOutcome.ok fsC1
    ["dst", "skill"] ["dst"] "same" ["dst", "skill"]
    { dirs := [[], ["dst"]], files := [] } hrun
  exact ⟨hmain.1, hmain.2.1⟩

/-- The C10 counterexample filesystem: a source skill with one file. -/
def fsC10 : FS :=
  { dirs := [["src"], ["src", "skill"]], files := [["src", "skill", "SKILL.md"]] }

/-- The filesystem after the errored copy of the C10 instance. -/
def fsC10after : FS :=
  { dirs := [["dst", "skill"], [], ["dst"], ["src"], ["src", "skill"]],
    files := [["src", "skill", "SKILL.md"]] }

/-- C10 counterexample: in the `"error"` case creating the destination
root is not the only modification — the failed `shutil.copytree` had
already created the destination path itself, a path that is neither the
destination root nor one of its ancestors and did not exist before. -/
theorem claim_C10_counterexample :
    copy_skill_tree id (CopyOutcome.err [[]] []) fsC10 ["src", "skill"] ["dst"] =
      some ("error", ["dst", "skill"], fsC10after) ∧
    fsC10after.isDir ["dst", "skill"] ∧ ¬ fsC10.isDir ["dst", "skill"] ∧
    ¬ ((["dst", "skill"] : List String) <+: ["dst"]) :=
  ⟨by rfl, by decide, by decide, by decide⟩

/-- The test-mode variant never modifies the filesystem. -/
theorem _copy_skill_tree_test_pure (expand : List String → List String) (fs' : FS)
    (source destRoot : List String) :
    (_copy_skill_tree_test expand fs' source destRoot).2.2 = fs' := by
  unfold _copy_skill_tree_test
  dsimp only
  split
  · rfl
  · split <;> rfl

/-- C10 (amended): whenever `copy_skill_tree` returns, the expanded
destination root exists afterwards, including when nothing was
installed; in the `"same"` and `"exists"` cases the only modification
is the creation of the destination root and its missing ancestors; in
the `"error"` case any additional modification lies at or below the
destination path (the partially copied tree); and the test-mode variant
creates nothing at all. -/
theorem claim_C10_copy_skill_tree_frame
    (expand : List String → List String) (outcome : CopyOutcome)
    (fs : FS) (source destRoot : List String) (st : String) (p : List String) (fs2 : FS)
    (h : copy_skill_tree expand outcome fs source destRoot = some (st, p, fs2)) :
    fs2.isDir (expand destRoot) ∧
    (st = "same" ∨ st = "exists" →
      (∀ q, fs2.isDir q ↔ (q <+: expand destRoot ∨ fs.isDir q)) ∧
      (∀ q, fs2.isFile q ↔ fs.isFile q)) ∧
    (st = "error" →
      (∀ q, fs2.isDir q → (q <+: expand destRoot ∨ p <+: q ∨ fs.isDir q)) ∧
      (∀ q, fs2.isFile q → (p <+: q ∨ fs.isFile q))) ∧
    (∀ fs' : FS, (_copy_skill_tree_test expand fs' source destRoot).2.2 = fs') := by
  unfold copy_skill_tree at h
  cases hm : makedirs fs (expand destRoot) with
  | none => simp only [hm] at h; cases h
  | some fs1 =>
    simp only [hm] at h
    obtain ⟨hd1, hf1⟩ := makedirs_some fs (expand destRoot) fs1 hm
    have hroot : fs1.isDir (expand destRoot) := by
      unfold FS.isDir
      rw [hd1, List.mem_append, List.mem_inits]
      exact Or.inl (List.prefix_refl _)
    have hsameframe :
        (∀ q, fs1.isDir q ↔ (q <+: expand destRoot ∨ fs.isDir q)) ∧
        (∀ q, fs1.isFile q ↔ fs.isFile q) := by
      constructor
      · intro q
        unfold FS.isDir
        rw [hd1, List.mem_append, List.mem_inits]
      · intro q
        unfold FS.isFile
        rw [hf1]
    by_cases h1 : expand destRoot ++ [source.getLastD ""] = source
    · rw [if_pos h1] at h
      cases h
      exact ⟨hroot, fun _ => hsameframe,
        fun hst => absurd hst (by decide), fun fs3 => _copy_skill_tree_test_pure expand fs3 source destRoot⟩
    · rw [if_neg h1] at h
      by_cases h2 : fs1.existsPath (expand destRoot ++ [source.getLastD ""])
      · rw [if_pos h2] at h
        cases h
        exact ⟨hroot, fun _ => hsameframe,
          fun hst => absurd hst (by decide), fun fs3 => _copy_skill_tree_test_pure expand fs3 source destRoot⟩
      · rw [if_neg h2] at h
        cases outcome with
        | ok =>
          simp only [copytree] at h
          cases h
          refine ⟨?_, fun hst => ?_, fun hst => absurd hst (by decide),
            fun fs3 => _copy_skill_tree_test_pure expand fs3 source destRoot⟩
          · have hroot2 : expand destRoot ∈ fs1.dirs := hroot
            unfold FS.isDir
            simp only [List.mem_cons, List.mem_append]
            exact Or.inr hroot2
          · rcases hst with hst | hst
            · exact absurd hst (by decide)
            · exact absurd hst (by decide)
        | err pd0 pf0 =>
          simp only [copytree] at h
          cases h
          refine ⟨?_, fun hst => ?_, fun _ => ⟨?_, ?_⟩,
            fun fs3 => _copy_skill_tree_test_pure expand fs3 source destRoot⟩
          · have hroot2 : expand destRoot ∈ fs1.dirs := hroot
            unfold FS.isDir
            simp only [List.mem_append]
            exact Or.inr hroot2
          · rcases hst with hst | hst
            · exact absurd hst (by decide)
            · exact absurd hst (by decide)
          · intro q hq
            unfold FS.isDir at hq
            simp only [List.mem_append, List.mem_map] at hq
            rcases hq with ⟨x, hx, rfl⟩ | hq
            · exact Or.inr (Or.inl (List.prefix_append _ _))
            · rw [hd1, List.mem_append, List.mem_inits] at hq
              rcases hq with hq | hq
              · exact Or.inl hq
              · exact Or.inr (Or.inr hq)
          · intro q hq
            unfold FS.isFile at hq
            simp only [List.mem_append, List.mem_map] at hq
            rcases hq with ⟨x, hx, rfl⟩ | hq
            · exact Or.inl (List.prefix_append _ _)
            · rw [hf1] at hq
              exact Or.inr hq

/-- The C10 witness filesystem (initially empty). -/
def fsC10w : FS := { dirs := [], files := [] }

/-- Witness for the amended C10 at a concrete `"same"` call. -/
theorem claim_C10_copy_skill_tree_frame_witness :
    FS.isDir { dirs := [[], ["dst"]], files := [] } (["dst"] : List String) ∧
    (("same" : String) = "same" ∨ ("same" : String) = "exists" →
      (∀ q, FS.isDir { dirs := [[], ["dst"]], files := [] } q ↔
        (q <+: (["dst"] : List String) ∨ fsC10w.isDir q)) ∧
      (∀ q, FS.isFile { dirs := [[], ["dst"]], files := [] } q ↔ fsC10w.isFile q)) ∧
    (∀ fs' : FS, (_copy_skill_tree_test id fs' ["dst", "skill"] ["dst"]).2.2 = fs') := by
  have hrun : copy_skill_tree id CopyOutcome.ok fsC10w ["dst", "skill"] ["dst"] =
      some ("same", ["dst", "skill"], { dirs := [[], ["dst"]], files := [] }) := by rfl
  have hmain := claim_C10_copy_skill_tree_frame id CopyOutcome.ok fsC10w
    ["dst", "skill"] ["dst"] "same" ["dst", "skill"]
    { dirs := [[], ["dst"]], files := [] } hrun
  exact ⟨hmain.1, hmain.2.1, hmain.2.2.2⟩

/-! ### `install_candidates` (`install.py:48-108`) -/

/-- The `agent_dirs` of a validated configuration, as consumed by
`install_candidates`: agent name ↦ (path type ↦ `None` or list of
target path strings).  `validate_config` guarantees exactly this
shape. -/
abbrev AgentDirs := List (String × List (String × Option (List String)))

/-- `agent_dirs.get(agent, {}) or {}` followed by
`ad.get(path_type, [])` and the `if not targets` guard
(install.py:73-78): the configured targets, empty when the agent or
path type is missing or maps to `None` or `[]`. -/
def targetsFor (agentDirs : AgentDirs) (agent pathType : String) : List String :=
  match agentDirs.find? (fun p => p.1 == agent) with
  | Option.none => []
  | some (_, ad) =>
    match ad.find? (fun p => p.1 == pathType) with
    | Option.none => []
    | some (_, Option.none) => []
    | some (_, some ts) => ts

/-- One record per copy attempt of the install loop. -/
structure Attempt where
  candidate : Entry
  agent : String
  pathType : String
  target : String
  status : String
  deriving DecidableEq, Repr

/-- The statuses that set `installed_any` (install.py:87-88 in test
mode, install.py:93-94 otherwise). -/
def qualifies (testMode : Bool) (st : String) : Bool :=
  if testMode then st == "would_install" || st == "same" else st == "installed"

/-- The innermost loop `for target in targets` (install.py:80-101),
with the copy function (`copy_skill_tree` or `_copy_skill_tree_test`)
as a state-threaded oracle; returns the attempts made, the
`installed_any` flag and the final state. -/
def installLoopTargets {σ : Type} (copyFn : σ → List String → String → String × σ)
    (test : Bool) (c : Entry) (agent pathType : String) :
    List String → Bool → σ → List Attempt × Bool × σ
  | [], acc, s => ([], acc, s)
  | t :: ts, acc, s =>
    let r := copyFn s c.path t
    let acc1 := if qualifies test r.1 then true else acc
    let rest := installLoopTargets copyFn test c agent pathType ts acc1 r.2
    (⟨c, agent, pathType, t, r.1⟩ :: rest.1, rest.2)

/-- The loop `for path_type in selected_paths` (install.py:74-101). -/
def installLoopPaths {σ : Type} (copyFn : σ → List String → String → String × σ)
    (test : Bool) (agentDirs : AgentDirs) (c : Entry) (agent : String) :
    List String → Bool → σ → List Attempt × Bool × σ
  | [], acc, s => ([], acc, s)
  | pt :: pts, acc, s =>
    let tr := installLoopTargets copyFn test c agent pt (targetsFor agentDirs agent pt) acc s
    let rest := installLoopPaths copyFn test agentDirs c agent pts tr.2.1 tr.2.2
    (tr.1 ++ rest.1, rest.2)

/-- The loop `for agent in selected_agents` (install.py:72-101). -/
def installLoopAgents {σ : Type} (copyFn : σ → List String → String → String × σ)
    (test : Bool) (agentDirs : AgentDirs) (c : Entry) :
    List String → List String → Bool → σ → List Attempt × Bool × σ
  | [], _, acc, s => ([], acc, s)
  | ag :: ags, pts, acc, s =>
    let tr := installLoopPaths copyFn test agentDirs c ag pts acc s
    let rest := installLoopAgents copyFn test agentDirs c ags pts tr.2.1 tr.2.2
    (tr.1 ++ rest.1, rest.2)

/-- The loop `for candidate in candidates` (install.py:71-101). -/
def installLoopCands {σ : Type} (copyFn : σ → List String → String → String × σ)
    (test : Bool) (agentDirs : AgentDirs) :
    List Entry → List String → List String → Bool → σ → List Attempt × Bool × σ
  | [], _, _, acc, s => ([], acc, s)
  | c :: cs, ags, pts, acc, s =>
    let tr := installLoopAgents copyFn test agentDirs c ags pts acc s
    let rest := installLoopCands copyFn test agentDirs cs ags pts tr.2.1 tr.2.2
    (tr.1 ++ rest.1, rest.2)

/-- `install_candidates` (install.py:48-108) after the agent/path
selection has been resolved: runs the nested loops starting with
`installed_any = False` and returns it. -/
def install_candidates {σ : Type} (copyFn : σ → List String → String → String × σ)
    (test : Bool) (agentDirs : AgentDirs) (candidates : List Entry)
    (selectedAgents selectedPaths : List String) (s : σ) : Bool × σ :=
  let r := installLoopCands copyFn test agentDirs candidates selectedAgents selectedPaths false s
  (r.2.1, r.2.2)

/-- The quadruples the loops are supposed to attempt: every candidate ×
selected agent × selected path type × configured target, in loop
order. -/
def expectedAttempts (agentDirs : AgentDirs) (candidates : List Entry)
    (selectedAgents selectedPaths : List String) :
    List (Entry × String × String × String) :=
  candidates.flatMap fun c => selectedAgents.flatMap fun ag =>
    selectedPaths.flatMap fun pt =>
      (targetsFor agentDirs ag pt).map fun t => (c, ag, pt, t)

/-- The innermost loop attempts exactly the given targets, in order. -/
theorem installLoopTargets_trace {σ : Type} (copyFn : σ → List String → String → String × σ)
    (test : Bool) (c : Entry) (agent pathType : String) :
    ∀ (ts : List String) (acc : Bool) (s : σ),
      (installLoopTargets copyFn test c agent pathType ts acc s).1.map
          (fun a => (a.candidate, a.agent, a.pathType, a.target)) =
        ts.map (fun t => (c, agent, pathType, t)) := by
  intro ts
  induction ts with
  | nil => intro acc s; rfl
  | cons t ts ih =>
    intro acc s
    simp only [installLoopTargets, List.map_cons]
    rw [ih]

/-- The innermost loop's flag is the accumulator or any qualifying
attempt. -/
theorem installLoopTargets_flag {σ : Type} (copyFn : σ → List String → String → String × σ)
    (test : Bool) (c : Entry) (agent pathType : String) :
    ∀ (ts : List String) (acc : Bool) (s : σ),
      (installLoopTargets copyFn test c agent pathType ts acc s).2.1 =
        (acc || (installLoopTargets copyFn test c agent pathType ts acc s).1.any
          (fun a => qualifies test a.status)) := by
  intro ts
  induction ts with
  | nil => intro acc s; simp [installLoopTargets]
  | cons t ts ih =>
    intro acc s
    simp only [installLoopTargets, List.any_cons]
    rw [ih]
    cases hq : qualifies test (copyFn s c.path t).1 <;>
      cases acc <;> simp [hq]

/-- The path-type loop attempts exactly the configured targets of each
selected path type, in order. -/
theorem installLoopPaths_trace {σ : Type} (copyFn : σ → List String → String → String × σ)
    (test : Bool) (agentDirs : AgentDirs) (c : Entry) (agent : String) :
    ∀ (pts : List String) (acc : Bool) (s : σ),
      (installLoopPaths copyFn test agentDirs c agent pts acc s).1.map
          (fun a => (a.candidate, a.agent, a.pathType, a.target)) =
        pts.flatMap (fun pt => (targetsFor agentDirs agent pt).map
          (fun t => (c, agent, pt, t))) := by
  intro pts
  induction pts with
  | nil => intro acc s; rfl
  | cons pt pts ih =>
    intro acc s
    simp only [installLoopPaths, List.flatMap_cons, List.map_append]
    rw [installLoopTargets_trace, ih]

/-- Flag behaviour of the path-type loop. -/
theorem installLoopPaths_flag {σ : Type} (copyFn : σ → List String → String → String × σ)
    (test : Bool) (agentDirs : AgentDirs) (c : Entry) (agent : String) :
    ∀ (pts : List String) (acc : Bool) (s : σ),
      (installLoopPaths copyFn test agentDirs c agent pts acc s).2.1 =
        (acc || (installLoopPaths copyFn test agentDirs c agent pts acc s).1.any
          (fun a => qualifies test a.status)) := by
  intro pts
  induction pts with
  | nil => intro acc s; simp [installLoopPaths]
  | cons pt pts ih =>
    intro acc s
    simp only [installLoopPaths, List.any_append]
    rw [ih, installLoopTargets_flag]
    cases acc <;> simp [Bool.or_assoc]

/-- The agent loop attempts exactly the configured targets of each
selected agent and path type, in order. -/
theorem installLoopAgents_trace {σ : Type} (copyFn : σ → List String → String → String × σ)
    (test : Bool) (agentDirs : AgentDirs) (c : Entry) :
    ∀ (ags pts : List String) (acc : Bool) (s : σ),
      (installLoopAgents copyFn test agentDirs c ags pts acc s).1.map
          (fun a => (a.candidate, a.agent, a.pathType, a.target)) =
        ags.flatMap (fun ag => pts.flatMap (fun pt =>
          (targetsFor agentDirs ag pt).map (fun t => (c, ag, pt, t)))) := by
  intro ags
  induction ags with
  | nil => intro pts acc s; rfl
  | cons ag ags ih =>
    intro pts acc s
    simp only [installLoopAgents, List.flatMap_cons, List.map_append]
    rw [installLoopPaths_trace, ih]

/-- Flag behaviour of the agent loop. -/
theorem installLoopAgents_flag {σ : Type} (copyFn : σ → List String → String → String × σ)
    (test : Bool) (agentDirs : AgentDirs) (c : Entry) :
    ∀ (ags pts : List String) (acc : Bool) (s : σ),
      (installLoopAgents copyFn test agentDirs c ags pts acc s).2.1 =
        (acc || (installLoopAgents copyFn test agentDirs c ags pts acc s).1.any
          (fun a => qualifies test a.status)) := by
  intro ags
  induction ags with
  | nil => intro pts acc s; simp [installLoopAgents]
  | cons ag ags ih =>
    intro pts acc s
    simp only [installLoopAgents, List.any_append]
    rw [ih, installLoopPaths_flag]
    cases acc <;> simp [Bool.or_assoc]

/-- The candidate loop attempts exactly the expected quadruples, in
order. -/
theorem installLoopCands_trace {σ : Type} (copyFn : σ → List String → String → String × σ)
    (test : Bool) (agentDirs : AgentDirs) :
    ∀ (cs : List Entry) (ags pts : List String) (acc : Bool) (s : σ),
      (installLoopCands copyFn test agentDirs cs ags pts acc s).1.map
          (fun a => (a.candidate, a.agent, a.pathType, a.target)) =
        expectedAttempts agentDirs cs ags pts := by
  intro cs
  induction cs with
  | nil => intro ags pts acc s; rfl
  | cons c cs ih =>
    intro ags pts acc s
    simp only [installLoopCands, expectedAttempts, List.flatMap_cons, List.map_append]
    rw [installLoopAgents_trace, ih]
    rfl

/-- Flag behaviour of the candidate loop. -/
theorem installLoopCands_flag {σ : Type} (copyFn : σ → List String → String → String × σ)
    (test : Bool) (agentDirs : AgentDirs) :
    ∀ (cs : List Entry) (ags pts : List String) (acc : Bool) (s : σ),
      (installLoopCands copyFn test agentDirs cs ags pts acc s).2.1 =
        (acc || (installLoopCands copyFn test agentDirs cs ags pts acc s).1.any
          (fun a => qualifies test a.status)) := by
  intro cs
  induction cs with
  | nil => intro ags pts acc s; simp [installLoopCands]
  | cons c cs ih =>
    intro ags pts acc s
    simp only [installLoopCands, List.any_append]
    rw [ih, installLoopAgents_flag]
    cases acc <;> simp [Bool.or_assoc]

/-- C7: `install_candidates` attempts a copy into each target path
configured for every candidate, selected agent and selected path type
(in loop order), and returns `True` iff at least one attempt produced
status `"installed"` in normal mode, or `"would_install"`/`"same"` in
test mode. -/
theorem claim_C7_install_candidates_spec {σ : Type}
    (copyFn : σ → List String → String → String × σ) (test : Bool)
    (agentDirs : AgentDirs) (candidates : List Entry)
    (selectedAgents selectedPaths : List String) (s : σ) :
    (installLoopCands copyFn test agentDirs candidates selectedAgents
        selectedPaths false s).1.map
        (fun a => (a.candidate, a.agent, a.pathType, a.target)) =
      expectedAttempts agentDirs candidates selectedAgents selectedPaths ∧
    ((install_candidates copyFn test agentDirs candidates selectedAgents
        selectedPaths s).1 = true ↔
      ∃ a ∈ (installLoopCands copyFn test agentDirs candidates selectedAgents
          selectedPaths false s).1, qualifies test a.status = true) := by
  refine ⟨installLoopCands_trace copyFn test agentDirs candidates
    selectedAgents selectedPaths false s, ?_⟩
  unfold install_candidates
  rw [installLoopCands_flag]
  simp [List.any_eq_true]

/-! ### Candidate assembly of the install command (`install.py:111-145`) -/

/-- The per-name filter of `install._run` (install.py:134): discovered
entries whose `name` or `folder_name` equals the requested name. -/
def matchingFor (discovered : List Entry) (skillName : String) : List Entry :=
  discovered.filter (fun d => d.name == skillName || d.folder_name == skillName)

/-- The discovery phase of `install._run` (install.py:117-124): the
current-directory scan followed by the scan of each configured
discovery dir, concatenated with `extend`. -/
def assembleDiscovered (cwdScan : List Entry) (dirScans : List (List Entry)) : List Entry :=
  cwdScan ++ dirScans.flatten

/-- The candidate assembly of `install._run` (install.py:131-141): for
each requested name, `candidates.extend(matching)` (extending by the
empty list when nothing matches prints a message and adds nothing). -/
def assembleCandidates (discovered : List Entry) (skillArgs : List String) : List Entry :=
  skillArgs.flatMap (fun nm => matchingFor discovered nm)

/-- The C2 instance: a skill whose `name` and `folder_name` differ. -/
def entryC2 : Entry :=
  { name := "a", description := "d", path := ["p"], rel_path := "./p", folder_name := "b" }

/-- C2 counterexample: a skill directory discovered both by the
current-directory scan and by a discovery-dir scan appears twice in the
assembled candidates — the same path occurs twice, so the list is not
deduplicated. -/
theorem claim_C2_counterexample :
    assembleCandidates (assembleDiscovered [entryC2] [[entryC2]]) ["a"] =
      [entryC2, entryC2] ∧
    (assembleCandidates (assembleDiscovered [entryC2] [[entryC2]]) ["a"]).countP
        (fun d => d.path == entryC2.path) = 2 :=
  ⟨by decide, by decide⟩

/-- C2 (amended): the install command performs no deduplication: each
discovered entry occurs in the candidate list once for every requested
name it matches (by `name` or `folder_name`) and for every time it was
discovered — so a directory scanned twice, or matching two requested
names, appears multiple times; conversely only discovered entries
matching a requested name are candidates. -/
theorem claim_C2_candidates_multiplicity (cwdScan : List Entry)
    (dirScans : List (List Entry)) (skillArgs : List String) (e : Entry) :
    (assembleCandidates (assembleDiscovered cwdScan dirScans) skillArgs).count e =
      skillArgs.countP (fun nm => e.name == nm || e.folder_name == nm) *
        (assembleDiscovered cwdScan dirScans).count e := by
  unfold assembleCandidates
  generalize assembleDiscovered cwdScan dirScans = d
  induction skillArgs with
  | nil => simp
  | cons nm rest ih =>
    simp only [List.flatMap_cons, List.count_append, List.countP_cons]
    rw [ih]
    unfold matchingFor
    by_cases hm : (e.name == nm || e.folder_name == nm) = true
    · have hcf : (d.filter (fun x => x.name == nm || x.folder_name == nm)).count e =
          d.count e := by
        simp [hm]
      rw [hcf, if_pos hm]
      ring
    · have h0 : (d.filter (fun x => x.name == nm || x.folder_name == nm)).count e = 0 := by
        rw [List.count_eq_zero]
        intro hmem
        rw [List.mem_filter] at hmem
        exact hm hmem.2
      rw [h0, if_neg hm]
      ring

/-! ### `load_config` (`config.py:195-278`) -/

/-- Outcome of opening and `json.load`ing a path. -/
inductive ReadOutcome where
  | ok (v : PyVal)
  | badJson
  | notFound
  | otherErr

/-- The environment `load_config` runs in: the `SKILLER_CONFIG`
variable, `os.path.isfile`, and the open-and-parse oracle. -/
structure LoadEnv where
  skillerConfigVar : Option String
  isFile : String → Bool
  read : String → ReadOutcome

/-- `validate_config_or_exit` (config.py:161-192): returns the config
unchanged when it validates, otherwise prints the errors and exits
(`.error`). -/
def validate_config_or_exit (config : PyVal) : Except Unit PyVal :=
  if (validate_config config).1 then .ok config else .error ()

/-- Reading and validating a config file on the explicit/development
paths (config.py:230-237 and 252-260): a `json.JSONDecodeError` exits,
any other read failure propagates uncaught; neither returns a config. -/
def loadAndValidate (env : LoadEnv) (path : String) : Except Unit PyVal :=
  match env.read path with
  | .ok v => validate_config_or_exit v
  | _ => .error ()

/-- The upward search of `load_config` (config.py:245-263) over the
precomputed chain of ancestors of the cwd (ending at the filesystem
root): the first existing `skiller/skiller_config.json` or
`skiller_config.json` wins. -/
def searchUp (env : LoadEnv) : List String → Option String
  | [] => Option.none
  | dir :: rest =>
    let cand1 := dir ++ "/skiller/skiller_config.json"
    let cand2 := dir ++ "/skiller_config.json"
    if env.isFile cand1 then some cand1
    else if env.isFile cand2 then some cand2
    else searchUp env rest

/-- A list of strings as a Python value. -/
def strList (ss : List String) : PyVal := .list (ss.map PyVal.str)

/-- One agent entry of the builtin defaults. -/
def agentEntry (user project : List String) : PyVal :=
  .dict [(.str "user", strList user), (.str "project", strList project)]

/-- `DEFAULT_CONFIG` (config.py:195-210). -/
def DEFAULT_CONFIG : PyVal :=
  .dict [
    (.str "custom_subdirs", strList ["dev"]),
    (.str "discovery_dirs", strList []),
    (.str "agent_dirs", .dict [
      (.str "default", agentEntry ["~/.config/opencode/skill"] [".opencode/skill"]),
      (.str "opencode", agentEntry ["~/.config/opencode/skill"] [".opencode/skill"]),
      (.str "qwen", agentEntry ["~/.qwen/skills"] [".qwen/skills"]),
      (.str "claude", agentEntry ["~/.claude/skills"] [".claude/skills"]),
      (.str "gemini", agentEntry ["~/.gemini/skills"] [".gemini/skills"]),
      (.str "codex", agentEntry ["~/.codex/skills", "/etc/codex/skills"]
        [".codex/skills", "../.codex/skills"]),
      (.str "trae", agentEntry ["~/.trae/skills"] [".trae/skills"])])]

/-- `load_config` (config.py:213-278): `SKILLER_CONFIG` first (falling
through to the other lookups when unset, empty or not a file), then the
upward development search, then the packaged config (absent →
builtin defaults, bad JSON → exit).  `.error` covers both `sys.exit`
and an uncaught exception: in neither case does a config escape. -/
def load_config (env : LoadEnv) (searchDirs : List String) (packagedPath : String) :
    Except Unit PyVal :=
  let searchPhase :=
    match searchUp env searchDirs with
    | some cand => loadAndValidate env cand
    | Option.none =>
      match env.read packagedPath with
      | .ok v => validate_config_or_exit v
      | .notFound => validate_config_or_exit DEFAULT_CONFIG
      | _ => .error ()
  match env.skillerConfigVar with
  | some s =>
    if s.isEmpty then searchPhase
    else if env.isFile s then loadAndValidate env s
    else searchPhase
  | Option.none => searchPhase

/-- Whatever `validate_config_or_exit` returns validates cleanly. -/
theorem validate_config_or_exit_ok (v c : PyVal)
    (h : validate_config_or_exit v = .ok c) : (validate_config c).1 = true := by
  unfold validate_config_or_exit at h
  split at h
  · cases h
    assumption
  · cases h

/-- Whatever `loadAndValidate` returns validates cleanly. -/
theorem loadAndValidate_ok (env : LoadEnv) (path : String) (c : PyVal)
    (h : loadAndValidate env path = .ok c) : (validate_config c).1 = true := by
  unfold loadAndValidate at h
  cases hr : env.read path with
  | ok v => rw [hr] at h; exact validate_config_or_exit_ok v c h
  | badJson => rw [hr] at h; cases h
  | notFound => rw [hr] at h; cases h
  | otherErr => rw [hr] at h; cases h

/-- `is_valid` is exactly emptiness of the error list. -/
theorem validate_config_true_iff_nil (c : PyVal) :
    (validate_config c).1 = true ↔ (validate_config c).2 = [] := by
  cases c with
  | dict entries => simp [validate_config, List.isEmpty_iff]
  | pyNone => simp [validate_config]
  | str s => simp [validate_config]
  | int n => simp [validate_config]
  | bool b => simp [validate_config]
  | list xs => simp [validate_config]

/-- C8: every configuration `load_config` returns — from whatever
source — satisfies `validate_config` with an empty error list; an
invalid or unparseable configuration never escapes (the function exits
or the exception propagates instead, both modelled by `.error`). -/
theorem claim_C8_load_config_validated (env : LoadEnv) (searchDirs : List String)
    (packagedPath : String) (c : PyVal)
    (h : load_config env searchDirs packagedPath = .ok c) :
    (validate_config c).1 = true ∧ (validate_config c).2 = [] := by
  have hvalid : (validate_config c).1 = true := by
    unfold load_config at h
    have hsearch :
        ∀ (hs : (match searchUp env searchDirs with
          | some cand => loadAndValidate env cand
          | Option.none =>
            match env.read packagedPath with
            | .ok v => validate_config_or_exit v
            | .notFound => validate_config_or_exit DEFAULT_CONFIG
            | _ => .error ()) = Except.ok c), (validate_config c).1 = true := by
      intro hs
      cases hu : searchUp env searchDirs with
      | some cand =>
        rw [hu] at hs
        exact loadAndValidate_ok env cand c hs
      | none =>
        rw [hu] at hs
        cases hr : env.read packagedPath with
        | ok v => rw [hr] at hs; exact validate_config_or_exit_ok v c hs
        | badJson => rw [hr] at hs; cases hs
        | notFound => rw [hr] at hs; exact validate_config_or_exit_ok _ c hs
        | otherErr => rw [hr] at hs; cases hs
    cases hv : env.skillerConfigVar with
    | some s =>
      simp only [hv] at h
      by_cases he : s.isEmpty = true
      · rw [if_pos he] at h
        exact hsearch h
      · rw [if_neg he] at h
        by_cases hf : env.isFile s = true
        · rw [if_pos hf] at h
          exact loadAndValidate_ok env s c h
        · rw [if_neg hf] at h
          exact hsearch h
    | none =>
      simp only [hv] at h
      exact hsearch h
  exact ⟨hvalid, (validate_config_true_iff_nil c).mp hvalid⟩

/-- The C8 witness environment: nothing set, nothing on disk. -/
def envC8 : LoadEnv :=
  { skillerConfigVar := Option.none, isFile := fun _ => false,
    read := fun _ => .notFound }

/-- Witness for C8: with nothing available, `load_config` returns the
builtin defaults, which validate cleanly. -/
theorem claim_C8_load_config_validated_witness :
    (validate_config DEFAULT_CONFIG).1 = true ∧ (validate_config DEFAULT_CONFIG).2 = [] :=
  claim_C8_load_config_validated envC8 ["/"] "/pkg/skiller_config.json" DEFAULT_CONFIG
    (by rfl)

/-! ### `AGENTSCompressor.remove_redundant_whitespace`
(`skills/agents-writer/scripts/compress_docs.py:98-116`) -/

/-- `text.split('\n')` over codepoint lists: always non-empty, one
piece per `'\n'`-separated segment, empty pieces included. -/
def splitNl : List Char → List (List Char)
  | [] => [[]]
  | c :: cs =>
    if c = '\n' then [] :: splitNl cs
    else
      match splitNl cs with
      | [] => [[c]]
      | p :: ps => (c :: p) :: ps

/-- `'\n'.join(lines)` over codepoint lists. -/
def joinNl : List (List Char) → List Char
  | [] => []
  | l :: ls => l ++ (ls.map (fun x => '\n' :: x)).flatten

/-- `line.rstrip()` with the whitespace class as a parameter (Python
strips every Unicode whitespace character; the claims hold for any
class). -/
def rstripL (ws : Char → Bool) (l : List Char) : List Char :=
  (l.reverse.dropWhile ws).reverse

/-- The blank-collapsing loop (compress_docs.py:104-113): count
consecutive lines with `not line.strip()` (all-whitespace lines) and
keep only the first two of each run. -/
def dropExtraBlanks (ws : Char → Bool) : List (List Char) → Nat → List (List Char)
  | [], _ => []
  | l :: ls, blankCount =>
    if l.all ws then
      if blankCount + 1 ≤ 2 then l :: dropExtraBlanks ws ls (blankCount + 1)
      else dropExtraBlanks ws ls (blankCount + 1)
    else l :: dropExtraBlanks ws ls 0

/-- `remove_redundant_whitespace` (compress_docs.py:98-116): split into
lines, rstrip each, drop third-and-later consecutive blank lines, join
back. -/
def remove_redundant_whitespace (ws : Char → Bool) (text : List Char) : List Char :=
  joinNl (dropExtraBlanks ws ((splitNl text).map (rstripL ws)) 0)

/-- Splitting never yields the empty list of pieces. -/
theorem splitNl_ne_nil : ∀ t : List Char, splitNl t ≠ [] := by
  intro t
  cases t with
  | nil => simp [splitNl]
  | cons c cs =>
    simp only [splitNl]
    by_cases hc : c = '\n'
    · rw [if_pos hc]; simp
    · rw [if_neg hc]
      cases splitNl cs with
      | nil => simp
      | cons p ps => simp

/-- Lines produced by splitting contain no newline. -/
theorem splitNl_no_newline : ∀ (t : List Char) (l : List Char),
    l ∈ splitNl t → '\n' ∉ l := by
  intro t
  induction t with
  | nil =>
    intro l hl
    simp only [splitNl, List.mem_singleton] at hl
    subst hl
    simp
  | cons c cs ih =>
    intro l hl
    simp only [splitNl] at hl
    by_cases hc : c = '\n'
    · rw [if_pos hc] at hl
      rcases List.mem_cons.mp hl with rfl | hl
      · simp
      · exact ih l hl
    · rw [if_neg hc] at hl
      cases hs : splitNl cs with
      | nil => exact absurd hs (splitNl_ne_nil cs)
      | cons p ps =>
        rw [hs] at hl
        rcases List.mem_cons.mp hl with rfl | hl
        · intro hmem
          rcases List.mem_cons.mp hmem with h1 | h1
          · exact hc h1.symm
          · exact ih p (by rw [hs]; exact List.mem_cons_self _ _) h1
        · exact ih l (by rw [hs]; exact List.mem_cons.mpr (Or.inr hl))

/-- Joining undoes splitting. -/
theorem joinNl_splitNl : ∀ t : List Char, joinNl (splitNl t) = t := by
  intro t
  induction t with
  | nil => rfl
  | cons c cs ih =>
    simp only [splitNl]
    by_cases hc : c = '\n'
    · rw [if_pos hc]
      subst hc
      cases hs : splitNl cs with
      | nil => exact absurd hs (splitNl_ne_nil cs)
      | cons p ps =>
        rw [hs] at ih
        simp only [joinNl, List.map_cons, List.flatten_cons, List.nil_append]
        simp only [joinNl] at ih
        rw [List.cons_append, ih]
    · rw [if_neg hc]
      cases hs : splitNl cs with
      | nil => exact absurd hs (splitNl_ne_nil cs)
      | cons p ps =>
        rw [hs] at ih
        simp only [joinNl] at ih
        simp only [joinNl, List.cons_append, ih]

/-- Splitting a newline-free text gives a single piece. -/
theorem splitNl_single : ∀ l : List Char, '\n' ∉ l → splitNl l = [l] := by
  intro l
  induction l with
  | nil => intro _; rfl
  | cons c cs ih =>
    intro hmem
    have hc : ¬ c = '\n' := fun h => hmem (by rw [h]; exact List.mem_cons_self _ _)
    have hcs : '\n' ∉ cs := fun h => hmem (List.mem_cons.mpr (Or.inr h))
    simp only [splitNl, if_neg hc, ih hcs]

/-- Splitting distributes over a newline-free piece followed by a
newline. -/
theorem splitNl_append : ∀ l rest : List Char, '\n' ∉ l →
    splitNl (l ++ '\n' :: rest) = l :: splitNl rest := by
  intro l
  induction l with
  | nil =>
    intro rest _
    simp [splitNl]
  | cons c cs ih =>
    intro rest hmem
    have hc : ¬ c = '\n' := fun h => hmem (by rw [h]; exact List.mem_cons_self _ _)
    have hcs : '\n' ∉ cs := fun h => hmem (List.mem_cons.mpr (Or.inr h))
    simp only [List.cons_append, splitNl, List.append_eq, if_neg hc, ih rest hcs]

/-- Splitting undoes joining of non-empty, newline-free lines. -/
theorem splitNl_joinNl : ∀ ls : List (List Char), ls ≠ [] →
    (∀ l ∈ ls, '\n' ∉ l) → splitNl (joinNl ls) = ls := by
  intro ls
  induction ls with
  | nil => intro h _; exact absurd rfl h
  | cons l ls ih =>
    intro _ hnl
    cases ls with
    | nil =>
      simp only [joinNl, List.map_nil, List.flatten_nil, List.append_nil]
      exact splitNl_single l (hnl l (List.mem_cons_self _ _))
    | cons l2 ls2 =>
      have hjoin : joinNl (l :: l2 :: ls2) = l ++ '\n' :: joinNl (l2 :: ls2) := by
        simp [joinNl]
      rw [hjoin, splitNl_append l _ (hnl l (List.mem_cons_self _ _)),
        ih (by simp) (fun x hx => hnl x (List.mem_cons.mpr (Or.inr hx)))]

/-- `dropWhile` is idempotent. -/
theorem dropWhile_dropWhile {α : Type} (p : α → Bool) :
    ∀ l : List α, (l.dropWhile p).dropWhile p = l.dropWhile p := by
  intro l
  induction l with
  | nil => rfl
  | cons a l ih =>
    by_cases hp : p a = true
    · simp [List.dropWhile_cons, hp, ih]
    · simp [List.dropWhile_cons, hp]

/-- `rstrip` yields a prefix of the line. -/
theorem rstripL_prefix_self (ws : Char → Bool) (l : List Char) : rstripL ws l <+: l := by
  unfold rstripL
  have h : l.reverse.dropWhile ws <:+ l.reverse := List.dropWhile_suffix ws
  have h2 := List.reverse_prefix.mpr h
  rwa [List.reverse_reverse] at h2

/-- `rstrip` is idempotent. -/
theorem rstripL_idem (ws : Char → Bool) (l : List Char) :
    rstripL ws (rstripL ws l) = rstripL ws l := by
  unfold rstripL
  rw [List.reverse_reverse, dropWhile_dropWhile]

/-- `rstrip` never lengthens a line. -/
theorem rstripL_length (ws : Char → Bool) (l : List Char) :
    (rstripL ws l).length ≤ l.length :=
  (rstripL_prefix_self ws l).length_le

/-- A map that fixes every element of a list is the identity on it. -/
theorem map_fix {α : Type} (f : α → α) :
    ∀ l : List α, (∀ a ∈ l, f a = a) → l.map f = l := by
  intro l
  induction l with
  | nil => intro _; rfl
  | cons a l ih =>
    intro h
    rw [List.map_cons, h a (List.mem_cons_self _ _),
      ih (fun x hx => h x (List.mem_cons.mpr (Or.inr hx)))]

/-- The blank-collapsing loop only removes lines. -/
theorem dropExtraBlanks_sublist (ws : Char → Bool) :
    ∀ (ls : List (List Char)) (c : Nat), List.Sublist (dropExtraBlanks ws ls c) ls := by
  intro ls
  induction ls with
  | nil => intro c; exact List.Sublist.refl _
  | cons l ls ih =>
    intro c
    simp only [dropExtraBlanks]
    by_cases hb : l.all ws = true
    · rw [if_pos hb]
      by_cases h2 : c + 1 ≤ 2
      · rw [if_pos h2]
        exact (ih (c + 1)).cons₂ l
      · rw [if_neg h2]
        exact (ih (c + 1)).cons l
    · rw [if_neg hb]
      exact (ih 0).cons₂ l

/-- Starting from a fresh run the loop keeps the first line. -/
theorem dropExtraBlanks_ne_nil (ws : Char → Bool) (l : List Char) (ls : List (List Char)) :
    dropExtraBlanks ws (l :: ls) 0 ≠ [] := by
  simp only [dropExtraBlanks]
  by_cases hb : l.all ws = true
  · rw [if_pos hb, if_pos (by omega : 0 + 1 ≤ 2)]
    simp
  · rw [if_neg hb]
    simp

/-- The runs-of-blanks invariant the loop establishes: processing with
counter `c` keeps every line. -/
def noLongRuns (ws : Char → Bool) : Nat → List (List Char) → Bool
  | _, [] => true
  | c, l :: ls =>
    if l.all ws then decide (c + 1 ≤ 2) && noLongRuns ws (c + 1) ls
    else noLongRuns ws 0 ls

/-- A smaller counter is more permissive. -/
theorem noLongRuns_mono (ws : Char → Bool) :
    ∀ (ls : List (List Char)) (c c' : Nat), c' ≤ c →
      noLongRuns ws c ls = true → noLongRuns ws c' ls = true := by
  intro ls
  induction ls with
  | nil => intro c c' _ _; rfl
  | cons l ls ih =>
    intro c c' hcc h
    simp only [noLongRuns] at h ⊢
    by_cases hb : l.all ws = true
    · rw [if_pos hb] at h ⊢
      rw [Bool.and_eq_true, decide_eq_true_iff] at h
      rw [Bool.and_eq_true, decide_eq_true_iff]
      exact ⟨by omega, ih (c + 1) (c' + 1) (by omega) h.2⟩
    · rw [if_neg hb] at h ⊢
      exact h

/-- On a list already satisfying the invariant the loop is the
identity. -/
theorem dropExtraBlanks_of_noLongRuns (ws : Char → Bool) :
    ∀ (ls : List (List Char)) (c : Nat),
      noLongRuns ws c ls = true → dropExtraBlanks ws ls c = ls := by
  intro ls
  induction ls with
  | nil => intro c _; rfl
  | cons l ls ih =>
    intro c h
    simp only [noLongRuns] at h
    simp only [dropExtraBlanks]
    by_cases hb : l.all ws = true
    · rw [if_pos hb] at h
      rw [Bool.and_eq_true, decide_eq_true_iff] at h
      rw [if_pos hb, if_pos h.1, ih (c + 1) h.2]
    · rw [if_neg hb] at h
      rw [if_neg hb, ih 0 h]

/-- The loop's output satisfies the invariant. -/
theorem noLongRuns_dropExtraBlanks (ws : Char → Bool) :
    ∀ (ls : List (List Char)) (c : Nat),
      noLongRuns ws c (dropExtraBlanks ws ls c) = true := by
  intro ls
  induction ls with
  | nil => intro c; rfl
  | cons l ls ih =>
    intro c
    simp only [dropExtraBlanks]
    by_cases hb : l.all ws = true
    · by_cases h2 : c + 1 ≤ 2
      · rw [if_pos hb, if_pos h2]
        simp only [noLongRuns, if_pos hb]
        rw [Bool.and_eq_true, decide_eq_true_iff]
        exact ⟨h2, ih (c + 1)⟩
      · rw [if_pos hb, if_neg h2]
        exact noLongRuns_mono ws _ (c + 1) c (by omega) (ih (c + 1))
    · rw [if_neg hb]
      simp only [noLongRuns, if_neg hb]
      exact ih 0

/-- Under the invariant, no three consecutive lines are blank. -/
theorem noLongRuns_no_three (ws : Char → Bool) :
    ∀ (ls : List (List Char)) (c : Nat), noLongRuns ws c ls = true →
      ∀ a b d, [a, b, d] <:+: ls →
        ¬(a.all ws = true ∧ b.all ws = true ∧ d.all ws = true) := by
  intro ls
  induction ls with
  | nil =>
    intro c _ a b d hinf
    rw [List.infix_nil] at hinf
    cases hinf
  | cons l ls ih =>
    intro c h a b d hinf hblank
    obtain ⟨ha, hb2, hd⟩ := hblank
    rcases List.infix_cons_iff.mp hinf with hpre | hinf2
    · rcases List.cons_prefix_cons.mp hpre with ⟨rfl, hpre2⟩
      obtain ⟨rest, hrest⟩ := hpre2
      simp only [List.cons_append, List.nil_append] at hrest
      subst hrest
      simp only [noLongRuns, if_pos ha] at h
      rw [Bool.and_eq_true] at h
      have h2 := h.2
      simp only [noLongRuns, if_pos hb2] at h2
      rw [Bool.and_eq_true] at h2
      have h3 := h2.2
      simp only [noLongRuns, if_pos hd] at h3
      rw [Bool.and_eq_true, decide_eq_true_iff] at h3
      omega
    · simp only [noLongRuns] at h
      by_cases hb : l.all ws = true
      · rw [if_pos hb, Bool.and_eq_true] at h
        exact ih (c + 1) h.2 a b d hinf2 ⟨ha, hb2, hd⟩
      · rw [if_neg hb] at h
        exact ih 0 h a b d hinf2 ⟨ha, hb2, hd⟩

/-- Length of a join in terms of its lines. -/
theorem joinNl_length : ∀ ls : List (List Char), ls ≠ [] →
    (joinNl ls).length + 1 = (ls.map List.length).sum + ls.length := by
  intro ls
  induction ls with
  | nil => intro h; exact absurd rfl h
  | cons l ls ih =>
    intro _
    cases ls with
    | nil => simp [joinNl]
    | cons l2 ls2 =>
      have hjoin : joinNl (l :: l2 :: ls2) = l ++ '\n' :: joinNl (l2 :: ls2) := by
        simp [joinNl]
      have ih2 := ih (by simp)
      rw [hjoin]
      simp only [List.length_append, List.length_cons, List.map_cons, List.sum_cons] at ih2 ⊢
      omega

/-- C9: `remove_redundant_whitespace` is idempotent and non-increasing,
and its result contains no line with trailing whitespace and no run of
more than two consecutive blank lines (for any whitespace class `ws`,
in particular Python's). -/
theorem claim_C9_remove_redundant_whitespace_props (ws : Char → Bool) (text : List Char) :
    remove_redundant_whitespace ws (remove_redundant_whitespace ws text) =
      remove_redundant_whitespace ws text ∧
    (remove_redundant_whitespace ws text).length ≤ text.length ∧
    (∀ l ∈ splitNl (remove_redundant_whitespace ws text), rstripL ws l = l) ∧
    (∀ a b d, [a, b, d] <:+: splitNl (remove_redundant_whitespace ws text) →
      ¬(a.all ws = true ∧ b.all ws = true ∧ d.all ws = true)) := by
  set lines := (splitNl text).map (rstripL ws) with hlines
  set out := dropExtraBlanks ws lines 0 with hout
  obtain ⟨p, ps, hsplit⟩ : ∃ p ps, splitNl text = p :: ps := by
    cases hs : splitNl text with
    | nil => exact absurd hs (splitNl_ne_nil text)
    | cons p ps => exact ⟨p, ps, rfl⟩
  have hout_ne : out ≠ [] := by
    rw [hout, hlines, hsplit, List.map_cons]
    exact dropExtraBlanks_ne_nil ws _ _
  have hsub : List.Sublist out lines := by
    rw [hout]
    exact dropExtraBlanks_sublist ws lines 0
  have hmem_src : ∀ l ∈ out, ∃ x ∈ splitNl text, l = rstripL ws x := by
    intro l hl
    have hml : l ∈ lines := hsub.subset hl
    rw [hlines] at hml
    obtain ⟨x, hx, rfl⟩ := List.mem_map.mp hml
    exact ⟨x, hx, rfl⟩
  have hno_nl : ∀ l ∈ out, '\n' ∉ l := by
    intro l hl hmem
    obtain ⟨x, hx, rfl⟩ := hmem_src l hl
    exact splitNl_no_newline text x hx ((rstripL_prefix_self ws x).subset hmem)
  have hfix : ∀ l ∈ out, rstripL ws l = l := by
    intro l hl
    obtain ⟨x, hx, rfl⟩ := hmem_src l hl
    exact rstripL_idem ws x
  have hB : noLongRuns ws 0 out = true := by
    rw [hout]
    exact noLongRuns_dropExtraBlanks ws lines 0
  have hrrw : remove_redundant_whitespace ws text = joinNl out := by
    unfold remove_redundant_whitespace
    rw [← hlines, ← hout]
  have hsplit_out : splitNl (remove_redundant_whitespace ws text) = out := by
    rw [hrrw]
    exact splitNl_joinNl out hout_ne hno_nl
  have hpart1 : remove_redundant_whitespace ws (remove_redundant_whitespace ws text) =
      remove_redundant_whitespace ws text := by
    calc remove_redundant_whitespace ws (remove_redundant_whitespace ws text)
        = joinNl (dropExtraBlanks ws
            ((splitNl (remove_redundant_whitespace ws text)).map (rstripL ws)) 0) := rfl
      _ = joinNl (dropExtraBlanks ws (out.map (rstripL ws)) 0) := by rw [hsplit_out]
      _ = joinNl (dropExtraBlanks ws out 0) := by rw [map_fix (rstripL ws) out hfix]
      _ = joinNl out := by rw [dropExtraBlanks_of_noLongRuns ws out 0 hB]
      _ = remove_redundant_whitespace ws text := hrrw.symm
  have hpart2 : (remove_redundant_whitespace ws text).length ≤ text.length := by
    have hjlen := joinNl_length out hout_ne
    have htlen : text.length + 1 =
        ((splitNl text).map List.length).sum + (splitNl text).length := by
      have hj := joinNl_length (splitNl text) (splitNl_ne_nil text)
      rwa [joinNl_splitNl] at hj
    have hsum1 : (out.map List.length).sum ≤ (lines.map List.length).sum :=
      List.Sublist.sum_le_sum (hsub.map List.length) (fun a _ => Nat.zero_le a)
    have hsum2 : (lines.map List.length).sum ≤ ((splitNl text).map List.length).sum := by
      rw [hlines, List.map_map]
      exact List.sum_le_sum (fun x _ => rstripL_length ws x)
    have hlen1 : out.length ≤ lines.length := hsub.length_le
    have hlen2 : lines.length = (splitNl text).length := by
      rw [hlines, List.length_map]
    rw [hrrw]
    omega
  refine ⟨hpart1, hpart2, ?_, ?_⟩
  · rw [hsplit_out]
    exact hfix
  · rw [hsplit_out]
    exact noLongRuns_no_three ws out 0 hB

end Skale
